import Mathlib

/-!
# RFT client: the Go-Back-N sender of `rft-client.cpp`

A shallow embedding of `main` of `src/dean-coventry/rft-client.cpp`:

* the command-line handling (lines 27-68),
* the sender state (`base`, `nextSeqNum`, `window`, `fileEOF`, the input
  stream and the retransmission timer, lines 91-100),
* the three phases of one iteration of the main loop: Fill (lines 118-148),
  Drain (lines 152-176) and the Timeout check (lines 179-189),
* the main loop (line 114) and the end marker (lines 196-201).

`uint16_t` counters are natural numbers reduced modulo `65536` where the code
can overflow; the `uint8_t` cast of the payload length is a reduction modulo
`256`.  Everything sent through `udt.udt_send` is appended to the field `sent`
of the state, oldest first.  What the environment decides (the bytes of the
file, the datagrams received, whether the timer duration has elapsed) is an
argument of the phase that consumes it.  Exceptions thrown by the transport
are not modelled.
-/

namespace RftClient

/-! ## Data model -/

/-- Window size: `#define WINDOW_SIZE 10` (line 22). -/
def WINDOW_SIZE : Nat := 10

/-- Modelled from the spec: the declaration of `datagramS` (header `datagram.h`)
is absent; section 3 of the specification lists its fields: sequence number,
ack number, payload length, a fixed-capacity payload buffer and a checksum.
Bytes are natural numbers. -/
structure datagramS where
  seqNum : Nat
  ackNum : Nat
  checksum : Nat
  payloadLength : Nat
  data : List Nat
  deriving DecidableEq, Repr, Inhabited

/-- The collaborators that `rft-client.cpp` takes from `datagram.h`: the
constant `MAX_PAYLOAD_LENGTH` and the two checksum functions.  They are
parameters of the whole development. -/
structure Env where
  MAX_PAYLOAD_LENGTH : Nat
  computeChecksum : datagramS → Nat
  validateChecksum : datagramS → Bool

/-- Modelled from the spec: the class `timerC` (header `timerC.h`) is absent;
section 4.4 of the specification gives `start()`, `stop()` and an expiry query
whose positive answer is consumed on read.  `running` is the armed flag;
`starts` and `stops` count the calls of `start()` and `stop()`. -/
structure timerC where
  running : Bool
  starts : Nat
  stops : Nat
  deriving DecidableEq, Repr

/-- The call `rto.start()`. -/
def timerC.start (t : timerC) : timerC :=
  { t with running := true, starts := t.starts + 1 }

/-- The call `rto.stop()`. -/
def timerC.stop (t : timerC) : timerC :=
  { t with running := false, stops := t.stops + 1 }

/-- The call `rto.timeout()`: `elapsed` says whether the duration has run out
since the last start.  An expiry is reported only while the timer is running,
and reporting it leaves the timer not running until it is started again. -/
def timerC.timeout (t : timerC) (elapsed : Bool) : Bool × timerC :=
  if t.running = true ∧ elapsed = true then (true, { t with running := false })
  else (false, t)

/-- The local variables of `main` that live across the main loop (lines
91-100), the unread part of the input stream `in`, and the log of the
datagrams handed to `udt.udt_send`. -/
structure Sender where
  base : Nat
  nextSeqNum : Nat
  window : List datagramS
  fileEOF : Bool
  input : List Nat
  rto : timerC
  sent : List datagramS
  deriving DecidableEq, Repr

/-- A value-initialised datagram, `datagramS pkt{}`. -/
def zeroDatagram (e : Env) : datagramS :=
  { seqNum := 0, ackNum := 0, checksum := 0, payloadLength := 0,
    data := List.replicate e.MAX_PAYLOAD_LENGTH 0 }

/-- The state on entry to the main loop (lines 91-100) for an input file with
the given bytes. -/
def init (e : Env) (file : List Nat) : Sender :=
  { base := 1, nextSeqNum := 1,
    window := List.replicate WINDOW_SIZE (zeroDatagram e),
    fileEOF := false, input := file,
    rto := { running := false, starts := 0, stops := 0 },
    sent := [] }

/-! ## Fill (lines 118-148) -/

/-- Lines 119-135: the datagram built for the bytes `chunk` that `in.read`
stored in `pkt.data`, with `pkt.seqNum = nextSeqNum`. -/
def buildPkt (e : Env) (nextSeqNum : Nat) (chunk : List Nat) : datagramS :=
  let pkt : datagramS :=
    { seqNum := nextSeqNum, ackNum := 0, checksum := 0,
      payloadLength := chunk.length % 256,
      data := chunk ++ List.replicate (e.MAX_PAYLOAD_LENGTH - chunk.length) 0 }
  { pkt with checksum := e.computeChecksum pkt }

/-- Lines 130-147: one pass through the body of the Fill loop when the read
returned at least one byte. -/
def sendNext (e : Env) (s : Sender) : Sender :=
  let pkt := buildPkt e s.nextSeqNum (s.input.take e.MAX_PAYLOAD_LENGTH)
  { s with
    input := s.input.drop e.MAX_PAYLOAD_LENGTH
    window := s.window.set (s.nextSeqNum % WINDOW_SIZE) pkt
    sent := s.sent ++ [pkt]
    rto := if s.base = s.nextSeqNum then s.rto.start else s.rto
    nextSeqNum := (s.nextSeqNum + 1) % 65536 }

/-- The Fill loop with a bound on the number of passes. -/
def fillLoop (e : Env) : Nat → Sender → Sender
  | 0, s => s
  | fuel + 1, s =>
    if s.fileEOF = false ∧ s.nextSeqNum < s.base + WINDOW_SIZE then
      if (s.input.take e.MAX_PAYLOAD_LENGTH).length ≤ 0 then
        { s with fileEOF := true }
      else fillLoop e fuel (sendNext e s)
    else s

/-- The Fill phase.  Every pass but the last consumes a byte of the input, so
`input.length + 1` passes are enough (`fill_guard_false`). -/
def fill (e : Env) (s : Sender) : Sender :=
  fillLoop e (s.input.length + 1) s

/-! ## Drain (lines 152-176) -/

/-- Lines 158-175: what the Drain loop does with one received datagram. -/
def processAck (e : Env) (ack : datagramS) (s : Sender) : Sender :=
  if e.validateChecksum ack = false then s
  else
    let newBase := (ack.ackNum + 1) % 65536
    if newBase > s.base then
      if newBase = s.nextSeqNum then { s with base := newBase, rto := s.rto.stop }
      else { s with base := newBase, rto := s.rto.start }
    else s

/-- The Drain phase: `rx` are the datagrams that `udt_receive` delivers, in
order, before it reports that nothing is queued. -/
def drain (e : Env) : List datagramS → Sender → Sender
  | [], s => s
  | ack :: rx, s => drain e rx (processAck e ack s)

/-! ## Timeout check (lines 179-189) -/

/-- The loop of lines 183-185, started at `s`, with a bound on the number of
passes: the slots it hands to `udt_send`, in order. -/
def retransmit (window : List datagramS) (nextSeqNum : Nat) : Nat → Nat → List datagramS
  | 0, _ => []
  | fuel + 1, s =>
    if s < nextSeqNum then
      window.getD (s % WINDOW_SIZE) default ::
        retransmit window nextSeqNum fuel ((s + 1) % 65536)
    else []

/-- The Timeout check; `nextSeqNum - base` passes of the loop are enough. -/
def timeoutCheck (elapsed : Bool) (s : Sender) : Sender :=
  if (s.rto.timeout elapsed).1 = true then
    { s with
      sent := s.sent ++ retransmit s.window s.nextSeqNum (s.nextSeqNum - s.base) s.base
      rto := (s.rto.timeout elapsed).2.start }
  else { s with rto := (s.rto.timeout elapsed).2 }

/-! ## Phases and runs -/

/-- One phase of the sender together with what the environment supplies to it:
the datagrams received during a Drain, and whether the timer duration has
elapsed at a Timeout check. -/
inductive Phase where
  | fill
  | drain (rx : List datagramS)
  | timeout (elapsed : Bool)
  deriving DecidableEq, Repr

/-- Effect of one phase. -/
def phase (e : Env) : Phase → Sender → Sender
  | .fill, s => fill e s
  | .drain rx, s => drain e rx s
  | .timeout elapsed, s => timeoutCheck elapsed s

/-- Effect of a sequence of phases, in any order. -/
def runPhases (e : Env) : List Phase → Sender → Sender
  | [], s => s
  | p :: ps, s => runPhases e ps (phase e p s)

/-- The guard of the main loop (line 114). -/
def loopGuard (s : Sender) : Bool :=
  !s.fileEOF || decide (s.base < s.nextSeqNum)

/-- One iteration of the main loop: Fill, Drain, Timeout check. -/
def iteration (e : Env) (rx : List datagramS) (elapsed : Bool) (s : Sender) : Sender :=
  timeoutCheck elapsed (drain e rx (fill e s))

/-- The main loop, driven by what the environment supplies to each iteration.
The result is `none` when the guard still holds after the last supplied
iteration. -/
def mainLoop (e : Env) : List (List datagramS × Bool) → Sender → Option Sender
  | [], s => if loopGuard s = true then none else some s
  | i :: is, s =>
    if loopGuard s = true then mainLoop e is (iteration e i.1 i.2 s) else some s

/-- Lines 196-201: the end marker is built and sent. -/
def sendFin (e : Env) (s : Sender) : Sender :=
  let fin : datagramS := { zeroDatagram e with seqNum := s.nextSeqNum, ackNum := 0, payloadLength := 0 }
  { s with sent := s.sent ++ [{ fin with checksum := e.computeChecksum fin }] }

/-- The transfer of lines 91-201. -/
def transfer (e : Env) (file : List Nat) (inputs : List (List datagramS × Bool)) : Option Sender :=
  (mainLoop e inputs (init e file)).map (sendFin e)

/-! ## A concrete environment, for evaluation -/

/-- A sample checksum: the sum of the header fields and of the valid part of
the payload, to 16 bits. -/
def sumChecksum (d : datagramS) : Nat :=
  (d.seqNum + d.ackNum + d.payloadLength + (d.data.take d.payloadLength).sum) % 65536

/-- A sample environment: payloads of at most two bytes, the checksum
`sumChecksum`, and validation by comparison with a fresh computation. -/
def sampleEnv : Env :=
  { MAX_PAYLOAD_LENGTH := 2
    computeChecksum := sumChecksum
    validateChecksum := fun d => d.checksum == sumChecksum d }

/-- A well-formed acknowledgement for `n` under `sampleEnv`. -/
def sampleAck (n : Nat) : datagramS :=
  { seqNum := 0, ackNum := n, checksum := n % 65536, payloadLength := 0, data := [0, 0] }

/-! ## Predicates and sample data used in the statements -/

/-- The window is empty: no sequence number `q` with `base ≤ q < nextSeqNum`. -/
def windowEmpty (s : Sender) : Prop :=
  ∀ q : Nat, ¬ (s.base ≤ q ∧ q < s.nextSeqNum)

/-- A datagram that fails validation under `sampleEnv`. -/
def corruptAck (n : Nat) : datagramS :=
  { sampleAck n with checksum := n % 65536 + 1 }

/-- Every datagram of the queue `rx` that passes validation acknowledges a
sequence number that has been assigned: its `ackNum + 1`, truncated to 16
bits, is at most `nextSeqNum`. -/
def acksSent (e : Env) (rx : List datagramS) (s : Sender) : Bool :=
  rx.all (fun ack => !e.validateChecksum ack || decide ((ack.ackNum + 1) % 65536 ≤ s.nextSeqNum))

/-- The condition `acksSent` for the queue of a Drain phase; nothing is asked of
the other phases. -/
def phaseAcksSent (e : Env) : Phase → Sender → Bool
  | .drain rx, s => acksSent e rx s
  | _, _ => true

/-- The condition `acksSent` for every Drain of a run of phases. -/
def runAcksSent (e : Env) : List Phase → Sender → Bool
  | [], _ => true
  | p :: ps, s => phaseAcksSent e p s && runAcksSent e ps (phase e p s)

/-- The phases of the iterations of the main loop, in order. -/
def phasesOf : List (List datagramS × Bool) → List Phase
  | [] => []
  | i :: is => Phase.fill :: Phase.drain i.1 :: Phase.timeout i.2 :: phasesOf is

/-- The counters are ordered and the 16-bit counter `nextSeqNum` has room for
every chunk that is still unread. -/
def Ordered (e : Env) (s : Sender) : Prop :=
  s.base ≤ s.nextSeqNum
    ∧ s.nextSeqNum * e.MAX_PAYLOAD_LENGTH + s.input.length ≤ 65535 * e.MAX_PAYLOAD_LENGTH

/-- Every slot of a sequence number from 1 up to `nextSeqNum - 1` and every
datagram sent so far has a non-zero `payloadLength`; the window has its
`WINDOW_SIZE` slots and the counters are in their range. -/
def Filled (s : Sender) : Prop :=
  s.window.length = WINDOW_SIZE ∧ 1 ≤ s.base ∧ s.nextSeqNum < 65536
    ∧ (∀ d ∈ s.sent, d.payloadLength ≠ 0)
    ∧ ∀ q : Nat, 1 ≤ q → q < s.nextSeqNum →
        (s.window.getD (q % WINDOW_SIZE) default).payloadLength ≠ 0

/-- A sample input file: five bytes, three chunks under `sampleEnv`. -/
def sampleFile : List Nat := [1, 2, 3, 4, 5]

/-- A sample schedule for the main loop: nothing is received and the timer
expires in the first iteration; the third datagram is acknowledged in the
second. -/
def sampleInputs : List (List datagramS × Bool) := [([], true), ([sampleAck 3], false)]

/-- The datagrams that a Fill phase started in `s` hands to `udt_send` (line
139). -/
def fillSends (e : Env) (s : Sender) : List datagramS :=
  (fill e s).sent.drop s.sent.length

/-- The datagrams sent at line 139 by the Fill phases of a run, in order: the
first transmissions, as opposed to the retransmissions of line 184. -/
def firstSends (e : Env) : List Phase → Sender → List datagramS
  | [], _ => []
  | p :: ps, s =>
    (match p with
      | Phase.fill => fillSends e s
      | _ => []) ++ firstSends e ps (phase e p s)

/-- The `k`-th chunk of the file, `k = 1, 2, ...`: what the `k`-th call of
`in.read(pkt.data, MAX_PAYLOAD_LENGTH)` stores. -/
def chunk (e : Env) (file : List Nat) (k : Nat) : List Nat :=
  (file.drop ((k - 1) * e.MAX_PAYLOAD_LENGTH)).take e.MAX_PAYLOAD_LENGTH

/-- The datagrams for the chunks `c + 1, ..., c + m`, numbered by the 16-bit
counter. -/
def chunkPkts (e : Env) (file : List Nat) (c m : Nat) : List datagramS :=
  (List.range m).map (fun j => buildPkt e ((c + j + 1) % 65536) (chunk e file (c + j + 1)))

/-- After `c` chunks: the unread input, the counter, and the end-of-file flag. -/
def Tracks (e : Env) (file : List Nat) (c : Nat) (s : Sender) : Prop :=
  s.input = file.drop (c * e.MAX_PAYLOAD_LENGTH)
    ∧ s.nextSeqNum = (c + 1) % 65536
    ∧ (s.fileEOF = true → (s.input.take e.MAX_PAYLOAD_LENGTH).length ≤ 0)

/-- A file of 65537 chunks under `sampleEnv`: 65536 chunks of two zero bytes and
a last chunk with the single byte 1. -/
def bigFile : List Nat := List.replicate 131072 0 ++ [1]

/-- Two iterations of the main loop: the first receives a datagram that passes
validation with `ackNum = 65534`, the second receives nothing; the timer does
not expire. -/
def wrapInputs : List (List datagramS × Bool) := [([sampleAck 65534], false), ([], false)]

/-! ## Command-line handling (lines 27-68) -/

/-- The variables set by the option loop: the defaults of lines 28-31, the
global `LOG_LEVEL` (`none` while the loop has not assigned it), and whether
the usage line was printed by the `default` case. -/
structure Args where
  portNum : Nat
  hostname : String
  inputFilename : String
  requiredArgumentCount : Int
  LOG_LEVEL : Option Int
  usagePrinted : Bool
  deriving DecidableEq, Repr

/-- Lines 28-31. -/
def Args.defaults : Args :=
  { portNum := 12345, hostname := "", inputFilename := "", requiredArgumentCount := 0,
    LOG_LEVEL := none, usagePrinted := false }

/-- The loop of lines 36-57 over the results of `getopt(argc, argv, "f:h:p:d:")`:
each is the option character returned (`'?'` for an unknown option or a
missing argument) with its `optarg`.  `stoi` is `std::stoi`, `none` when it
throws; the result is `none` when an exception leaves the loop.  The
assignment to the `uint16_t portNum` reduces modulo `65536`. -/
def parseLoop (stoi : String → Option Int) : List (Char × String) → Args → Option Args
  | [], a => some a
  | o :: rest, a =>
    if o.1 = 'p' then
      match stoi o.2 with
      | none => none
      | some v => parseLoop stoi rest { a with portNum := (v % 65536).toNat }
    else if o.1 = 'h' then
      parseLoop stoi rest
        { a with hostname := o.2, requiredArgumentCount := a.requiredArgumentCount + 1 }
    else if o.1 = 'd' then
      match stoi o.2 with
      | none => none
      | some v => parseLoop stoi rest { a with LOG_LEVEL := some v }
    else if o.1 = 'f' then
      parseLoop stoi rest
        { a with inputFilename := o.2, requiredArgumentCount := a.requiredArgumentCount + 1 }
    else parseLoop stoi rest { a with usagePrinted := true }

/-- How the argument handling of lines 27-68 ends: with the usage message and
`return(-1)` at line 61 or 67, before the input file is opened (line 80) and
before the transport is constructed (line 91); or by going on to line 80 with
the parsed values. -/
inductive Outcome where
  | usageExit (status : Int)
  | proceed (a : Args)
  deriving DecidableEq, Repr

/-- Lines 27-68. -/
def argHandling (stoi : String → Option Int) (opts : List (Char × String)) : Outcome :=
  match parseLoop stoi opts Args.defaults with
  | none => Outcome.usageExit (-1)
  | some a => if a.requiredArgumentCount ≠ 2 then Outcome.usageExit (-1) else Outcome.proceed a

/-- The value the specification gives for `base` after a Drain: the maximum of
the starting `base` and of `ackNum + 1`, truncated to 16 bits, over the
received datagrams that pass `validateChecksum`. -/
def ackMax (e : Env) (rx : List datagramS) (base : Nat) : Nat :=
  ((rx.filter e.validateChecksum).map (fun ack => (ack.ackNum + 1) % 65536)).foldr max base

/-- The timer is armed in the state `s`: it is running unless the window is
closed at `base = nextSeqNum`. -/
def Armed (s : Sender) : Prop :=
  s.rto.running = false → s.base = s.nextSeqNum

/-- The number of iterations that the main loop performs when it is driven by
`inputs`. -/
def iterations (e : Env) : List (List datagramS × Bool) → Sender → Nat
  | [], _ => 0
  | i :: is, s =>
    if loopGuard s = true then iterations e is (iteration e i.1 i.2 s) + 1 else 0

/-- After `c` chunks, while the 16-bit counter has not wrapped (`c ≤ 65534`):
the slot of each of the last `WINDOW_SIZE` sequence numbers `q ≤ c` holds the
datagram built for the `q`-th chunk. -/
def Slots (e : Env) (file : List Nat) (c : Nat) (s : Sender) : Prop :=
  s.window.length = WINDOW_SIZE
    ∧ (c ≤ 65534 → ∀ q : Nat, 1 ≤ q → q ≤ c → c < q + WINDOW_SIZE →
        s.window.getD (q % WINDOW_SIZE) default = buildPkt e q (chunk e file q))

/-- The number of non-empty chunks of a file: its length divided by
`MAX_PAYLOAD_LENGTH`, rounded up. -/
def numChunks (e : Env) (file : List Nat) : Nat :=
  (file.length + e.MAX_PAYLOAD_LENGTH - 1) / e.MAX_PAYLOAD_LENGTH

/-- The end marker of lines 196-200 for the sequence number `n`. -/
def finPkt (e : Env) (n : Nat) : datagramS :=
  { zeroDatagram e with
    seqNum := n, ackNum := 0, payloadLength := 0
    checksum := e.computeChecksum
      { zeroDatagram e with seqNum := n, ackNum := 0, payloadLength := 0 } }

/-- A file of 25 chunks under `sampleEnv`: the bytes 0, 1, ..., 49. -/
def file25 : List Nat := List.range 50

/-- The acknowledgements of the sequence numbers `a, a + 1, ..., a + n - 1`
under `sampleEnv`. -/
def sampleAcks (a n : Nat) : List datagramS := (List.range' a n).map sampleAck

/-- A zero-loss schedule for `file25`: each window is acknowledged, datagram by
datagram and in order, in the iteration that sent it; the timer never expires. -/
def zeroLossInputs : List (List datagramS × Bool) :=
  [(sampleAcks 1 10, false), (sampleAcks 11 10, false), (sampleAcks 21 5, false)]

/-- At most `n` chunks have been read in the state `s`. -/
def Within (e : Env) (file : List Nat) (n : Nat) (s : Sender) : Prop :=
  ∃ c, c ≤ n ∧ Tracks e file c s

/-- The channel delivers: in every iteration that the main loop performs, the
Drain receives exactly one datagram, which passes validation and acknowledges
the highest sequence number assigned so far (`ackNum + 1 = nextSeqNum` after
the Fill of that iteration), and the timer does not expire. -/
def delivering (e : Env) : List (List datagramS × Bool) → Sender → Bool
  | [], _ => true
  | i :: is, s =>
    if loopGuard s = true then
      (match i.1 with
        | [ack] => e.validateChecksum ack && decide (ack.ackNum + 1 = (fill e s).nextSeqNum)
        | _ => false)
        && !i.2 && delivering e is (iteration e i.1 i.2 s)
    else true

/-- A delivering schedule for `sampleFile` (three chunks): one iteration. -/
def deliveringInputs : List (List datagramS × Bool) := [([sampleAck 3], false)]

/-- The received datagram advances `base`: it passes validation and its
`ackNum + 1`, truncated to 16 bits, exceeds `base` (lines 159-166). -/
def advances (e : Env) (ack : datagramS) (s : Sender) : Bool :=
  e.validateChecksum ack && decide (s.base < (ack.ackNum + 1) % 65536)

/-- The received datagram advances `base` to `nextSeqNum`: it empties the
window (line 168). -/
def empties (e : Env) (ack : datagramS) (s : Sender) : Bool :=
  advances e ack s && decide ((ack.ackNum + 1) % 65536 = s.nextSeqNum)

/-- The number of datagrams of a Drain queue that advance `base`. -/
def drainAdvances (e : Env) : List datagramS → Sender → Nat
  | [], _ => 0
  | ack :: rx, s =>
    (if advances e ack s = true then 1 else 0) + drainAdvances e rx (processAck e ack s)

/-- The number of datagrams of a Drain queue that empty the window. -/
def drainEmpties (e : Env) : List datagramS → Sender → Nat
  | [], _ => 0
  | ack :: rx, s =>
    (if empties e ack s = true then 1 else 0) + drainEmpties e rx (processAck e ack s)

/-- The number of received datagrams that advance `base` in a run of phases. -/
def runAdvances (e : Env) : List Phase → Sender → Nat
  | [], _ => 0
  | p :: ps, s =>
    (match p with
      | Phase.drain rx => drainAdvances e rx s
      | _ => 0) + runAdvances e ps (phase e p s)

/-- The number of received datagrams that empty the window in a run of phases. -/
def runEmpties (e : Env) : List Phase → Sender → Nat
  | [], _ => 0
  | p :: ps, s =>
    (match p with
      | Phase.drain rx => drainEmpties e rx s
      | _ => 0) + runEmpties e ps (phase e p s)

/-- One if datagrams are outstanding (`base < nextSeqNum`), zero otherwise. -/
def outstanding (s : Sender) : Nat :=
  if s.base < s.nextSeqNum then 1 else 0

/-- The timer of a run without expiry: it is running exactly when datagrams
are outstanding, and if it is not running but was started, it was stopped. -/
def TimerQuiet (s : Sender) : Prop :=
  (s.rto.running = true ↔ s.base < s.nextSeqNum)
    ∧ (s.rto.running = false → 0 < s.rto.starts → 1 ≤ s.rto.stops)

theorem sendNext_base (e : Env) (s : Sender) : (sendNext e s).base = s.base := rfl

theorem sendNext_nextSeqNum (e : Env) (s : Sender) :
    (sendNext e s).nextSeqNum = (s.nextSeqNum + 1) % 65536 := rfl

theorem fillLoop_base (e : Env) (fuel : Nat) (s : Sender) :
    (fillLoop e fuel s).base = s.base := by
  induction fuel generalizing s with
  | zero => rfl
  | succ n ih =>
    simp only [fillLoop]
    split_ifs
    · rfl
    · rw [ih, sendNext_base]
    · rfl

theorem fillLoop_window_bound (e : Env) (fuel : Nat) (s : Sender)
    (h : s.nextSeqNum ≤ s.base + WINDOW_SIZE) :
    (fillLoop e fuel s).nextSeqNum ≤ (fillLoop e fuel s).base + WINDOW_SIZE := by
  induction fuel generalizing s with
  | zero => exact h
  | succ n ih =>
    simp only [fillLoop]
    split_ifs with hg hr
    · exact h
    · apply ih
      rw [sendNext_base, sendNext_nextSeqNum]
      have := Nat.mod_le (s.nextSeqNum + 1) 65536
      omega
    · exact h

theorem fillLoop_of_not_guard (e : Env) (fuel : Nat) (s : Sender)
    (h : ¬ (s.fileEOF = false ∧ s.nextSeqNum < s.base + WINDOW_SIZE)) :
    fillLoop e fuel s = s := by
  cases fuel with
  | zero => rfl
  | succ n => simp only [fillLoop, if_neg h]

theorem processAck_nextSeqNum (e : Env) (ack : datagramS) (s : Sender) :
    (processAck e ack s).nextSeqNum = s.nextSeqNum := by
  dsimp only [processAck]
  split_ifs <;> rfl

theorem processAck_base_le (e : Env) (ack : datagramS) (s : Sender) :
    s.base ≤ (processAck e ack s).base := by
  dsimp only [processAck]
  split_ifs with h1 h2 h3
  · exact le_rfl
  · exact le_of_lt h2
  · exact le_of_lt h2
  · exact le_rfl

theorem drain_nextSeqNum (e : Env) (rx : List datagramS) (s : Sender) :
    (drain e rx s).nextSeqNum = s.nextSeqNum := by
  induction rx generalizing s with
  | nil => rfl
  | cons a rx ih => simp only [drain]; rw [ih, processAck_nextSeqNum]

theorem drain_base_le (e : Env) (rx : List datagramS) (s : Sender) :
    s.base ≤ (drain e rx s).base := by
  induction rx generalizing s with
  | nil => exact le_rfl
  | cons a rx ih =>
    simp only [drain]
    exact le_trans (processAck_base_le e a s) (ih _)

theorem timeoutCheck_base (elapsed : Bool) (s : Sender) :
    (timeoutCheck elapsed s).base = s.base := by
  unfold timeoutCheck
  split_ifs <;> rfl

theorem timeoutCheck_nextSeqNum (elapsed : Bool) (s : Sender) :
    (timeoutCheck elapsed s).nextSeqNum = s.nextSeqNum := by
  unfold timeoutCheck
  split_ifs <;> rfl

theorem phase_base_le (e : Env) (p : Phase) (s : Sender) :
    s.base ≤ (phase e p s).base := by
  cases p with
  | fill => simp only [phase, fill, fillLoop_base]; exact le_rfl
  | drain rx => exact drain_base_le e rx s
  | timeout el => simp only [phase, timeoutCheck_base]; exact le_rfl

theorem phase_window_bound (e : Env) (p : Phase) (s : Sender)
    (h : s.nextSeqNum ≤ s.base + WINDOW_SIZE) :
    (phase e p s).nextSeqNum ≤ (phase e p s).base + WINDOW_SIZE := by
  cases p with
  | fill => exact fillLoop_window_bound e _ s h
  | drain rx =>
    simp only [phase, drain_nextSeqNum]
    have := drain_base_le e rx s
    omega
  | timeout el =>
    simp only [phase, timeoutCheck_base, timeoutCheck_nextSeqNum]
    exact h

theorem runPhases_window_bound (e : Env) (ps : List Phase) (s : Sender)
    (h : s.nextSeqNum ≤ s.base + WINDOW_SIZE) :
    (runPhases e ps s).nextSeqNum ≤ (runPhases e ps s).base + WINDOW_SIZE := by
  induction ps generalizing s with
  | nil => exact h
  | cons p ps ih => exact ih _ (phase_window_bound e p s h)

/-- C1 (window bound). In every state reached from the initial state by any
sequence of Fill, Drain and Timeout-check phases, whatever is received and
whatever the input file, `nextSeqNum - base ≤ WINDOW_SIZE` over the integers;
and neither a pass of the Fill loop nor the Fill phase changes anything (so
neither sends a datagram) from a state in which
`nextSeqNum < base + WINDOW_SIZE` fails. -/
theorem reachable_window_bound (e : Env) (file : List Nat) (ps : List Phase) :
    ((runPhases e ps (init e file)).nextSeqNum : Int) - (runPhases e ps (init e file)).base
        ≤ (WINDOW_SIZE : Int)
      ∧ ∀ (fuel : Nat) (t : Sender),
          ¬ t.nextSeqNum < t.base + WINDOW_SIZE → fillLoop e fuel t = t ∧ fill e t = t := by
  refine ⟨?_, ?_⟩
  · have h := runPhases_window_bound e ps (init e file) (by simp [init, WINDOW_SIZE])
    omega
  · intro fuel t ht
    exact ⟨fillLoop_of_not_guard e fuel t (fun hg => ht hg.2),
      fillLoop_of_not_guard e _ t (fun hg => ht hg.2)⟩

/-- Witness for C1: Fill at a full window (`base = 1`, `nextSeqNum = 11`). -/
theorem reachable_window_bound_witness :
    ¬ (11 : Nat) < 1 + WINDOW_SIZE ∧
      fill sampleEnv { init sampleEnv [1, 2, 3] with nextSeqNum := 11 }
        = { init sampleEnv [1, 2, 3] with nextSeqNum := 11 } :=
  ⟨by decide, ((reachable_window_bound sampleEnv [] []).2 0 _ (by decide)).2⟩

theorem windowEmpty_iff (s : Sender) : windowEmpty s ↔ s.nextSeqNum ≤ s.base := by
  unfold windowEmpty
  constructor
  · intro h
    by_contra hlt
    exact h s.base ⟨le_rfl, by omega⟩
  · intro h q hq
    omega

theorem fill_guard_false (e : Env) (fuel : Nat) (s : Sender) (h : s.input.length < fuel) :
    ¬ ((fillLoop e fuel s).fileEOF = false
        ∧ (fillLoop e fuel s).nextSeqNum < (fillLoop e fuel s).base + WINDOW_SIZE) := by
  induction fuel generalizing s with
  | zero => omega
  | succ n ih =>
    simp only [fillLoop]
    split_ifs with hg hr
    · simp
    · apply ih
      simp only [sendNext, List.length_drop]
      simp only [List.length_take] at hr
      omega
    · exact hg

theorem drain_append (e : Env) (rx ry : List datagramS) (s : Sender) :
    drain e (rx ++ ry) s = drain e ry (drain e rx s) := by
  induction rx generalizing s with
  | nil => rfl
  | cons a rx ih => simp only [List.cons_append, drain]; exact ih _

theorem processAck_of_invalid (e : Env) (ack : datagramS) (s : Sender)
    (h : e.validateChecksum ack = false) : processAck e ack s = s := by
  simp only [processAck, h, if_true]

theorem processAck_of_stale (e : Env) (ack : datagramS) (s : Sender)
    (h : (ack.ackNum + 1) % 65536 ≤ s.base) : processAck e ack s = s := by
  dsimp only [processAck]
  split_ifs with h1 h2 h3
  · rfl
  · omega
  · omega
  · rfl

/-- C2 (cumulative-ACK monotonicity). No phase of the sender (Fill, Drain of
any received datagrams, Timeout check) and no single received datagram
decreases `base`; and a received datagram whose `ackNum + 1`, truncated to 16
bits, is at most `base` leaves the whole state unchanged: `base`,
`nextSeqNum`, the window, the timer, and the log of sent datagrams. -/
theorem base_monotone (e : Env) (s : Sender) :
    (∀ p : Phase, s.base ≤ (phase e p s).base)
      ∧ ∀ ack : datagramS, s.base ≤ (processAck e ack s).base
          ∧ ((ack.ackNum + 1) % 65536 ≤ s.base → processAck e ack s = s) :=
  ⟨fun p => phase_base_le e p s,
   fun ack => ⟨processAck_base_le e ack s, processAck_of_stale e ack s⟩⟩

/-- Witness for C2: a duplicate acknowledgement of sequence number 2 when
`base` is already 3. -/
theorem base_monotone_witness :
    ((sampleAck 2).ackNum + 1) % 65536
        ≤ (runPhases sampleEnv [.fill, .drain [sampleAck 2]] (init sampleEnv [1, 2, 3, 4, 5, 6, 7])).base
      ∧ processAck sampleEnv (sampleAck 2)
          (runPhases sampleEnv [.fill, .drain [sampleAck 2]] (init sampleEnv [1, 2, 3, 4, 5, 6, 7]))
        = runPhases sampleEnv [.fill, .drain [sampleAck 2]] (init sampleEnv [1, 2, 3, 4, 5, 6, 7]) :=
  ⟨by decide, ((base_monotone sampleEnv _).2 (sampleAck 2)).2 (by decide)⟩

/-- C3 (corruption immunity). A received datagram that fails
`validateChecksum` leaves the whole state unchanged, whatever its `ackNum`:
`base`, `nextSeqNum`, the window, the timer and the log of sent datagrams; and
a Drain that receives it anywhere in its queue ends in the same state as the
Drain without it. -/
theorem corrupt_ignored (e : Env) (ack : datagramS) (s : Sender)
    (h : e.validateChecksum ack = false) :
    processAck e ack s = s
      ∧ ∀ rx ry : List datagramS, drain e (rx ++ ack :: ry) s = drain e (rx ++ ry) s := by
  refine ⟨processAck_of_invalid e ack s h, ?_⟩
  intro rx ry
  rw [drain_append, drain_append]
  simp only [drain]
  rw [processAck_of_invalid e ack _ h]

/-- Witness for C3: a datagram with a flipped checksum acknowledging 9. -/
theorem corrupt_ignored_witness :
    sampleEnv.validateChecksum (corruptAck 9) = false
      ∧ (processAck sampleEnv (corruptAck 9) (fill sampleEnv (init sampleEnv [1, 2, 3]))
            = fill sampleEnv (init sampleEnv [1, 2, 3])
          ∧ ∀ rx ry : List datagramS,
              drain sampleEnv (rx ++ corruptAck 9 :: ry) (fill sampleEnv (init sampleEnv [1, 2, 3]))
                = drain sampleEnv (rx ++ ry) (fill sampleEnv (init sampleEnv [1, 2, 3]))) :=
  ⟨by decide, corrupt_ignored sampleEnv (corruptAck 9) _ (by decide)⟩

theorem retransmit_eq (window : List datagramS) (n : Nat) (hn : n < 65536) (fuel q : Nat)
    (h : fuel ≤ n - q) :
    retransmit window n fuel q
      = (List.range' q fuel).map (fun k => window.getD (k % WINDOW_SIZE) default) := by
  induction fuel generalizing q with
  | zero => rfl
  | succ m ih =>
    have hq : q < n := by omega
    have hmod : (q + 1) % 65536 = q + 1 := Nat.mod_eq_of_lt (by omega)
    simp only [retransmit, if_pos hq, hmod, List.range'_succ, List.map_cons]
    rw [ih (q + 1) (by omega)]

/-- C5 (timeout completeness). When `rto.timeout()` reports expiry, the Timeout
check hands to `udt_send` exactly the slots `window[q % WINDOW_SIZE]` for
`q = base, base + 1, ..., nextSeqNum - 1`, each once and in increasing order
of `q`, then restarts the timer (which is then running), and leaves `base`,
`nextSeqNum`, the window, `fileEOF` and the input unchanged. -/
theorem timeout_retransmits (elapsed : Bool) (s : Sender) (hn : s.nextSeqNum < 65536)
    (hexp : (s.rto.timeout elapsed).1 = true) :
    (timeoutCheck elapsed s).sent
        = s.sent ++ (List.range' s.base (s.nextSeqNum - s.base)).map
            (fun q => s.window.getD (q % WINDOW_SIZE) default)
      ∧ (timeoutCheck elapsed s).rto = (s.rto.timeout elapsed).2.start
      ∧ (timeoutCheck elapsed s).rto.running = true
      ∧ (timeoutCheck elapsed s).base = s.base
      ∧ (timeoutCheck elapsed s).nextSeqNum = s.nextSeqNum
      ∧ (timeoutCheck elapsed s).window = s.window
      ∧ (timeoutCheck elapsed s).fileEOF = s.fileEOF
      ∧ (timeoutCheck elapsed s).input = s.input := by
  have hs : timeoutCheck elapsed s
      = { s with
          sent := s.sent ++ retransmit s.window s.nextSeqNum (s.nextSeqNum - s.base) s.base
          rto := (s.rto.timeout elapsed).2.start } := by
    simp only [timeoutCheck, if_pos hexp]
  rw [hs]
  refine ⟨?_, rfl, rfl, rfl, rfl, rfl, rfl, rfl⟩
  exact congrArg (s.sent ++ ·) (retransmit_eq s.window s.nextSeqNum hn _ _ le_rfl)

/-- Witness for C5: `base = 1` and `nextSeqNum = 11`, the slots of the sequence
numbers 1 to 10 are sent again and `base` stays 1. -/
theorem timeout_retransmits_witness :
    (fill sampleEnv (init sampleEnv (List.range 25))).base = 1
      ∧ (fill sampleEnv (init sampleEnv (List.range 25))).nextSeqNum = 11
      ∧ ((fill sampleEnv (init sampleEnv (List.range 25))).rto.timeout true).1 = true
      ∧ ((timeoutCheck true (fill sampleEnv (init sampleEnv (List.range 25)))).sent.drop 10).map
          (fun d => d.seqNum) = [1, 2, 3, 4, 5, 6, 7, 8, 9, 10]
      ∧ (timeoutCheck true (fill sampleEnv (init sampleEnv (List.range 25)))).base = 1 := by
  have h := timeout_retransmits true (fill sampleEnv (init sampleEnv (List.range 25)))
    (by decide) (by decide)
  refine ⟨by decide, by decide, by decide, ?_, ?_⟩
  · rw [h.1]; decide
  · rw [h.2.2.2.1]; decide

/-- C6, as stated, fails: in the initial state (`base = nextSeqNum = 1`) a
valid datagram with `ackNum = 5` advances `base` to 6, the window is then
empty (no `q` with `6 ≤ q < 1`), and the timer is restarted, not stopped. -/
theorem rearm_counterexample :
    sampleEnv.validateChecksum (sampleAck 5) = true
      ∧ (init sampleEnv []).base < ((sampleAck 5).ackNum + 1) % 65536
      ∧ windowEmpty (processAck sampleEnv (sampleAck 5) (init sampleEnv []))
      ∧ (processAck sampleEnv (sampleAck 5) (init sampleEnv [])).rto ≠ (init sampleEnv []).rto.stop
      ∧ (processAck sampleEnv (sampleAck 5) (init sampleEnv [])).rto = (init sampleEnv []).rto.start := by
  refine ⟨by decide, by decide, ?_, by decide, by decide⟩
  rw [windowEmpty_iff]
  decide

/-- C6, amended (timer re-arm). A valid received datagram with
`newBase = ackNum + 1 > base` sets `base = newBase`, then stops the timer if
`base = nextSeqNum` and restarts it otherwise; when `newBase ≤ nextSeqNum`
(the datagram acknowledges a sequence number that has been assigned) the timer
is stopped exactly when the window is empty, and restarted exactly when it is
not. Nothing else changes. -/
theorem rearm_after_advance (e : Env) (ack : datagramS) (s : Sender)
    (hv : e.validateChecksum ack = true) (hnew : s.base < (ack.ackNum + 1) % 65536) :
    (processAck e ack s).base = (ack.ackNum + 1) % 65536
      ∧ (processAck e ack s).rto
          = (if (processAck e ack s).base = (processAck e ack s).nextSeqNum
              then s.rto.stop else s.rto.start)
      ∧ ((ack.ackNum + 1) % 65536 ≤ s.nextSeqNum →
          ((processAck e ack s).rto = s.rto.stop ↔ windowEmpty (processAck e ack s))
            ∧ ((processAck e ack s).rto = s.rto.start ↔ ¬ windowEmpty (processAck e ack s)))
      ∧ (processAck e ack s).nextSeqNum = s.nextSeqNum
      ∧ (processAck e ack s).window = s.window
      ∧ (processAck e ack s).sent = s.sent := by
  have hne : s.rto.stop ≠ s.rto.start := by
    intro h
    have := congrArg timerC.running h
    simp [timerC.stop, timerC.start] at this
  by_cases heq : (ack.ackNum + 1) % 65536 = s.nextSeqNum
  · have hs : processAck e ack s
        = { s with base := (ack.ackNum + 1) % 65536, rto := s.rto.stop } := by
      dsimp only [processAck]
      rw [if_neg (by simp [hv]), if_pos hnew, if_pos heq]
    rw [hs]
    refine ⟨rfl, by simp [heq], ?_, rfl, rfl, rfl⟩
    intro _
    rw [windowEmpty_iff]
    simp only [heq, le_refl, not_true_eq_false, iff_false, true_iff]
    exact ⟨trivial, hne⟩
  · have hs : processAck e ack s
        = { s with base := (ack.ackNum + 1) % 65536, rto := s.rto.start } := by
      dsimp only [processAck]
      rw [if_neg (by simp [hv]), if_pos hnew, if_neg heq]
    rw [hs]
    refine ⟨rfl, by simp [heq], ?_, rfl, rfl, rfl⟩
    intro hle
    rw [windowEmpty_iff]
    simp only [true_iff, not_le]
    refine ⟨?_, by omega⟩
    constructor
    · intro h; exact absurd h.symm hne
    · intro h; omega

/-- Witness for the amended C6: after a Fill of three datagrams, the
acknowledgement of sequence number 1. -/
theorem rearm_after_advance_witness :
    sampleEnv.validateChecksum (sampleAck 1) = true
      ∧ (fill sampleEnv (init sampleEnv [1, 2, 3, 4, 5])).base < ((sampleAck 1).ackNum + 1) % 65536
      ∧ (processAck sampleEnv (sampleAck 1) (fill sampleEnv (init sampleEnv [1, 2, 3, 4, 5]))).base = 2
      ∧ (processAck sampleEnv (sampleAck 1) (fill sampleEnv (init sampleEnv [1, 2, 3, 4, 5]))).rto
          = (fill sampleEnv (init sampleEnv [1, 2, 3, 4, 5])).rto.start := by
  have h := rearm_after_advance sampleEnv (sampleAck 1)
    (fill sampleEnv (init sampleEnv [1, 2, 3, 4, 5])) (by decide) (by decide)
  refine ⟨by decide, by decide, h.1, ?_⟩
  rw [h.2.1]
  decide

/-! ## The counters stay ordered when acknowledgements are for assigned numbers -/

theorem sendNext_ordered (e : Env) (s : Sender) (h : Ordered e s)
    (hr : ¬ (s.input.take e.MAX_PAYLOAD_LENGTH).length ≤ 0) : Ordered e (sendNext e s) := by
  obtain ⟨h1, h2⟩ := h
  simp only [List.length_take] at hr
  have hlt : s.nextSeqNum < 65535 := by
    by_contra hge
    have := Nat.mul_le_mul_right e.MAX_PAYLOAD_LENGTH (Nat.le_of_not_lt hge)
    omega
  have hmod : (s.nextSeqNum + 1) % 65536 = s.nextSeqNum + 1 := Nat.mod_eq_of_lt (by omega)
  have hmul : (s.nextSeqNum + 1) * e.MAX_PAYLOAD_LENGTH
      = s.nextSeqNum * e.MAX_PAYLOAD_LENGTH + e.MAX_PAYLOAD_LENGTH := Nat.succ_mul _ _
  have hmul2 : (s.nextSeqNum + 1) * e.MAX_PAYLOAD_LENGTH ≤ 65535 * e.MAX_PAYLOAD_LENGTH :=
    Nat.mul_le_mul_right _ (by omega)
  refine ⟨?_, ?_⟩
  · simp only [sendNext, hmod]; omega
  · simp only [sendNext, hmod, List.length_drop]
    omega

theorem fillLoop_ordered (e : Env) (fuel : Nat) (s : Sender) (h : Ordered e s) :
    Ordered e (fillLoop e fuel s) := by
  induction fuel generalizing s with
  | zero => exact h
  | succ n ih =>
    simp only [fillLoop]
    split_ifs with hg hr
    · exact h
    · exact ih _ (sendNext_ordered e s h hr)
    · exact h

theorem processAck_ordered (e : Env) (ack : datagramS) (s : Sender) (h : Ordered e s)
    (ha : e.validateChecksum ack = true → (ack.ackNum + 1) % 65536 ≤ s.nextSeqNum) :
    Ordered e (processAck e ack s) := by
  dsimp only [processAck]
  split_ifs with h1 h2 h3
  · exact h
  · exact ⟨le_of_eq h3, h.2⟩
  · exact ⟨ha (by simpa using h1), h.2⟩
  · exact h

theorem drain_ordered (e : Env) (rx : List datagramS) (s : Sender) (h : Ordered e s)
    (ha : acksSent e rx s = true) : Ordered e (drain e rx s) := by
  induction rx generalizing s with
  | nil => exact h
  | cons a rx ih =>
    simp only [acksSent, List.all_cons, Bool.and_eq_true, Bool.or_eq_true,
      Bool.not_eq_true', decide_eq_true_eq] at ha
    simp only [drain]
    apply ih
    · apply processAck_ordered e a s h
      intro hv
      rcases ha.1 with h1 | h1
      · rw [hv] at h1; exact absurd h1 (by simp)
      · exact h1
    · simp only [acksSent, processAck_nextSeqNum]
      exact ha.2

theorem timeoutCheck_ordered (e : Env) (elapsed : Bool) (s : Sender) (h : Ordered e s) :
    Ordered e (timeoutCheck elapsed s) := by
  unfold timeoutCheck
  split_ifs <;> exact h

theorem runPhases_ordered (e : Env) (ps : List Phase) (s : Sender) (h : Ordered e s)
    (ha : runAcksSent e ps s = true) : Ordered e (runPhases e ps s) := by
  induction ps generalizing s with
  | nil => exact h
  | cons p ps ih =>
    simp only [runAcksSent, Bool.and_eq_true] at ha
    simp only [runPhases]
    apply ih _ _ ha.2
    cases p with
    | fill => exact fillLoop_ordered e _ s h
    | drain rx => exact drain_ordered e rx s h ha.1
    | timeout el => exact timeoutCheck_ordered e el s h

theorem init_ordered (e : Env) (file : List Nat)
    (hfile : file.length ≤ 65534 * e.MAX_PAYLOAD_LENGTH) : Ordered e (init e file) := by
  refine ⟨le_rfl, ?_⟩
  simp only [init]
  omega

/-- C4, as stated, fails: after a Fill of two datagrams (`nextSeqNum = 3`), a
datagram that passes validation and carries `ackNum = 5` makes `base = 6`. -/
theorem ordering_counterexample :
    sampleEnv.validateChecksum (sampleAck 5) = true
      ∧ (runPhases sampleEnv [.fill, .drain [sampleAck 5]] (init sampleEnv [1, 2, 3])).base = 6
      ∧ (runPhases sampleEnv [.fill, .drain [sampleAck 5]] (init sampleEnv [1, 2, 3])).nextSeqNum = 3
      ∧ ¬ (runPhases sampleEnv [.fill, .drain [sampleAck 5]] (init sampleEnv [1, 2, 3])).base
          ≤ (runPhases sampleEnv [.fill, .drain [sampleAck 5]] (init sampleEnv [1, 2, 3])).nextSeqNum := by
  decide

/-- C4, amended (counter ordering). For an input of at most 65534 chunks
(`file.length ≤ 65534 * MAX_PAYLOAD_LENGTH`, so that the 16-bit `nextSeqNum`
does not wrap), in every state reached from the initial state by Fill, Drain
and Timeout-check phases in which every received datagram that passes
validation acknowledges an assigned sequence number (`ackNum + 1`, truncated
to 16 bits, at most `nextSeqNum`), `base ≤ nextSeqNum` holds. -/
theorem ordering_of_acksSent (e : Env) (file : List Nat) (ps : List Phase)
    (hfile : file.length ≤ 65534 * e.MAX_PAYLOAD_LENGTH)
    (hacks : runAcksSent e ps (init e file) = true) :
    (runPhases e ps (init e file)).base ≤ (runPhases e ps (init e file)).nextSeqNum :=
  (runPhases_ordered e ps _ (init_ordered e file hfile) hacks).1

/-- Witness for the amended C4: a run with duplicate, corrupt and cumulative
acknowledgements. -/
theorem ordering_of_acksSent_witness :
    [1, 2, 3, 4, 5].length ≤ 65534 * sampleEnv.MAX_PAYLOAD_LENGTH
      ∧ runAcksSent sampleEnv
          [.fill, .drain [sampleAck 1, corruptAck 7, sampleAck 1], .timeout true, .drain [sampleAck 3]]
          (init sampleEnv [1, 2, 3, 4, 5]) = true
      ∧ (runPhases sampleEnv
          [.fill, .drain [sampleAck 1, corruptAck 7, sampleAck 1], .timeout true, .drain [sampleAck 3]]
          (init sampleEnv [1, 2, 3, 4, 5])).base
        ≤ (runPhases sampleEnv
          [.fill, .drain [sampleAck 1, corruptAck 7, sampleAck 1], .timeout true, .drain [sampleAck 3]]
          (init sampleEnv [1, 2, 3, 4, 5])).nextSeqNum :=
  ⟨by decide, by decide, ordering_of_acksSent sampleEnv _ _ (by decide) (by decide)⟩

/-! ## The main loop as a run of phases -/

theorem runPhases_append (e : Env) (ps qs : List Phase) (s : Sender) :
    runPhases e (ps ++ qs) s = runPhases e qs (runPhases e ps s) := by
  induction ps generalizing s with
  | nil => rfl
  | cons p ps ih => simp only [List.cons_append, runPhases]; exact ih _

theorem runPhases_iteration (e : Env) (i : List datagramS × Bool) (s : Sender) :
    runPhases e [Phase.fill, Phase.drain i.1, Phase.timeout i.2] s = iteration e i.1 i.2 s := rfl

theorem mainLoop_exit (e : Env) (inputs : List (List datagramS × Bool)) (s t : Sender)
    (h : mainLoop e inputs s = some t) :
    ∃ k, t = runPhases e (phasesOf (inputs.take k)) s ∧ loopGuard t = false := by
  induction inputs generalizing s with
  | nil =>
    simp only [mainLoop] at h
    split_ifs at h with hg
    simp only [Option.some.injEq] at h
    subst h
    exact ⟨0, rfl, by simpa using hg⟩
  | cons i is ih =>
    simp only [mainLoop] at h
    split_ifs at h with hg
    · obtain ⟨k, hk, hgt⟩ := ih _ h
      refine ⟨k + 1, ?_, hgt⟩
      rw [hk]
      rfl
    · simp only [Option.some.injEq] at h
      subst h
      exact ⟨0, rfl, by simpa using hg⟩

theorem runAcksSent_take (e : Env) (inputs : List (List datagramS × Bool)) (k : Nat) (s : Sender)
    (h : runAcksSent e (phasesOf inputs) s = true) :
    runAcksSent e (phasesOf (inputs.take k)) s = true := by
  induction inputs generalizing s k with
  | nil => simpa using h
  | cons i is ih =>
    cases k with
    | zero => rfl
    | succ k =>
      simp only [phasesOf, runAcksSent, Bool.and_eq_true] at h
      simp only [List.take_succ_cons, phasesOf, runAcksSent, Bool.and_eq_true]
      exact ⟨h.1, h.2.1, h.2.2.1, ih k _ h.2.2.2⟩

theorem loopGuard_false_iff (s : Sender) :
    loopGuard s = false ↔ s.fileEOF = true ∧ s.nextSeqNum ≤ s.base := by
  simp [loopGuard]

/-- C7, as stated, fails: with a three-byte file (two chunks) and one
iteration whose Drain receives a datagram that passes validation with
`ackNum = 5`, the main loop exits with `fileEOF` true, `base = 6` and
`nextSeqNum = 3`. -/
theorem loop_exit_counterexample :
    (mainLoop sampleEnv [([sampleAck 5], false)] (init sampleEnv [1, 2, 3])).map
        (fun t => (loopGuard t, t.fileEOF, t.base, t.nextSeqNum))
      = some (false, true, 6, 3) := by
  decide

/-- C7, amended (loop exit). For an input of at most 65534 chunks, when every
received datagram that passes validation acknowledges an assigned sequence
number: in every state reached by Fill, Drain and Timeout-check phases the
loop guard is false if and only if `fileEOF` is true and `base = nextSeqNum`;
the main loop returns at once from a state in which the guard is false; and
the state in which the main loop exits has `fileEOF` true and
`base = nextSeqNum`. -/
theorem loop_exit_of_acksSent (e : Env) (file : List Nat)
    (hfile : file.length ≤ 65534 * e.MAX_PAYLOAD_LENGTH) :
    (∀ ps : List Phase, runAcksSent e ps (init e file) = true →
        (loopGuard (runPhases e ps (init e file)) = false ↔
          (runPhases e ps (init e file)).fileEOF = true
            ∧ (runPhases e ps (init e file)).base = (runPhases e ps (init e file)).nextSeqNum))
      ∧ (∀ (inputs : List (List datagramS × Bool)) (s : Sender),
          loopGuard s = false → mainLoop e inputs s = some s)
      ∧ (∀ (inputs : List (List datagramS × Bool)) (t : Sender),
          runAcksSent e (phasesOf inputs) (init e file) = true →
          mainLoop e inputs (init e file) = some t →
            loopGuard t = false ∧ t.fileEOF = true ∧ t.base = t.nextSeqNum) := by
  have key : ∀ ps : List Phase, runAcksSent e ps (init e file) = true →
      (loopGuard (runPhases e ps (init e file)) = false ↔
        (runPhases e ps (init e file)).fileEOF = true
          ∧ (runPhases e ps (init e file)).base = (runPhases e ps (init e file)).nextSeqNum) := by
    intro ps hacks
    have hord := (runPhases_ordered e ps _ (init_ordered e file hfile) hacks).1
    rw [loopGuard_false_iff]
    constructor
    · rintro ⟨h1, h2⟩; exact ⟨h1, le_antisymm hord h2⟩
    · rintro ⟨h1, h2⟩; exact ⟨h1, le_of_eq h2.symm⟩
  refine ⟨key, ?_, ?_⟩
  · intro inputs s hs
    cases inputs with
    | nil => simp [mainLoop, hs]
    | cons i is => simp [mainLoop, hs]
  · intro inputs t hacks hrun
    obtain ⟨k, hk, hg⟩ := mainLoop_exit e inputs _ t hrun
    have h := (key _ (runAcksSent_take e inputs k _ hacks)).1 (hk ▸ hg)
    rw [← hk] at h
    exact ⟨hg, h⟩

/-- Witness for the amended C7: a five-byte file (three chunks), acknowledged
in the first iteration. -/
theorem loop_exit_of_acksSent_witness :
    [1, 2, 3, 4, 5].length ≤ 65534 * sampleEnv.MAX_PAYLOAD_LENGTH
      ∧ runAcksSent sampleEnv (phasesOf [([sampleAck 2, sampleAck 3], false)])
          (init sampleEnv [1, 2, 3, 4, 5]) = true
      ∧ (mainLoop sampleEnv [([sampleAck 2, sampleAck 3], false)] (init sampleEnv [1, 2, 3, 4, 5])).isSome
          = true
      ∧ ∀ t : Sender,
          mainLoop sampleEnv [([sampleAck 2, sampleAck 3], false)] (init sampleEnv [1, 2, 3, 4, 5])
              = some t →
            loopGuard t = false ∧ t.fileEOF = true ∧ t.base = t.nextSeqNum :=
  ⟨by decide, by decide, by decide,
    fun t ht => (loop_exit_of_acksSent sampleEnv [1, 2, 3, 4, 5] (by decide)).2.2 _ t (by decide) ht⟩

/-! ## Only the end marker has payload length 0 -/

theorem buildPkt_payloadLength_ne_zero (e : Env) (hM : e.MAX_PAYLOAD_LENGTH ≤ 255) (n : Nat)
    (input : List Nat) (hr : ¬ (input.take e.MAX_PAYLOAD_LENGTH).length ≤ 0) :
    (buildPkt e n (input.take e.MAX_PAYLOAD_LENGTH)).payloadLength ≠ 0 := by
  simp only [buildPkt]
  simp only [List.length_take] at hr ⊢
  omega

theorem sendNext_filled (e : Env) (hM : e.MAX_PAYLOAD_LENGTH ≤ 255) (s : Sender) (h : Filled s)
    (hr : ¬ (s.input.take e.MAX_PAYLOAD_LENGTH).length ≤ 0) : Filled (sendNext e s) := by
  obtain ⟨hw, hb, hn, hs, hq⟩ := h
  have hp := buildPkt_payloadLength_ne_zero e hM s.nextSeqNum s.input hr
  refine ⟨?_, hb, ?_, ?_, ?_⟩
  · simp only [sendNext, List.length_set]; exact hw
  · exact Nat.mod_lt _ (by norm_num)
  · intro d hd
    simp only [sendNext, List.mem_append, List.mem_singleton] at hd
    rcases hd with hd | hd
    · exact hs d hd
    · rw [hd]; exact hp
  · intro q hq1 hq2
    have hle : q ≤ s.nextSeqNum := by
      have := Nat.mod_le (s.nextSeqNum + 1) 65536
      simp only [sendNext] at hq2
      omega
    simp only [sendNext, List.getD_eq_getElem?_getD, List.getElem?_set]
    have hlt : s.nextSeqNum % WINDOW_SIZE < s.window.length := by
      rw [hw]; exact Nat.mod_lt _ (by decide)
    by_cases hidx : s.nextSeqNum % WINDOW_SIZE = q % WINDOW_SIZE
    · rw [if_pos hidx, if_pos hlt]
      exact hp
    · rw [if_neg hidx]
      have hne : q ≠ s.nextSeqNum := fun hc => hidx (by rw [hc])
      have := hq q hq1 (by omega)
      rwa [List.getD_eq_getElem?_getD] at this

theorem fillLoop_filled (e : Env) (hM : e.MAX_PAYLOAD_LENGTH ≤ 255) (fuel : Nat) (s : Sender)
    (h : Filled s) : Filled (fillLoop e fuel s) := by
  induction fuel generalizing s with
  | zero => exact h
  | succ n ih =>
    simp only [fillLoop]
    split_ifs with hg hr
    · exact h
    · exact ih _ (sendNext_filled e hM s h hr)
    · exact h

theorem processAck_filled (e : Env) (ack : datagramS) (s : Sender) (h : Filled s) :
    Filled (processAck e ack s) := by
  obtain ⟨hw, hb, hn, hs, hq⟩ := h
  dsimp only [processAck]
  split_ifs with h1 h2 h3
  · exact ⟨hw, hb, hn, hs, hq⟩
  · exact ⟨hw, by show 1 ≤ (ack.ackNum + 1) % 65536; omega, hn, hs, hq⟩
  · exact ⟨hw, by show 1 ≤ (ack.ackNum + 1) % 65536; omega, hn, hs, hq⟩
  · exact ⟨hw, hb, hn, hs, hq⟩

theorem drain_filled (e : Env) (rx : List datagramS) (s : Sender) (h : Filled s) :
    Filled (drain e rx s) := by
  induction rx generalizing s with
  | nil => exact h
  | cons a rx ih => exact ih _ (processAck_filled e a s h)

theorem timeoutCheck_filled (elapsed : Bool) (s : Sender) (h : Filled s) :
    Filled (timeoutCheck elapsed s) := by
  obtain ⟨hw, hb, hn, hs, hq⟩ := h
  unfold timeoutCheck
  split_ifs with hexp
  · refine ⟨hw, hb, hn, ?_, hq⟩
    intro d hd
    simp only [List.mem_append] at hd
    rcases hd with hd | hd
    · exact hs d hd
    · rw [retransmit_eq s.window s.nextSeqNum hn _ _ le_rfl] at hd
      simp only [List.mem_map, List.mem_range'_1] at hd
      obtain ⟨q, ⟨hq1, hq2⟩, rfl⟩ := hd
      exact hq q (by omega) (by omega)
  · exact ⟨hw, hb, hn, hs, hq⟩

theorem runPhases_filled (e : Env) (hM : e.MAX_PAYLOAD_LENGTH ≤ 255) (ps : List Phase)
    (s : Sender) (h : Filled s) : Filled (runPhases e ps s) := by
  induction ps generalizing s with
  | nil => exact h
  | cons p ps ih =>
    apply ih
    cases p with
    | fill => exact fillLoop_filled e hM _ s h
    | drain rx => exact drain_filled e rx s h
    | timeout el => exact timeoutCheck_filled el s h

theorem init_filled (e : Env) (file : List Nat) : Filled (init e file) := by
  refine ⟨by simp [init], le_rfl, by simp [init], by simp [init], ?_⟩
  intro q h1 h2
  simp only [init] at h2
  omega

theorem chunkPkts_succ (e : Env) (file : List Nat) (c m : Nat) :
    chunkPkts e file c (m + 1)
      = buildPkt e ((c + 1) % 65536) (chunk e file (c + 1)) :: chunkPkts e file (c + 1) m := by
  simp only [chunkPkts, List.range_succ_eq_map, List.map_cons, List.map_map, Nat.add_zero]
  congr 1
  apply List.map_congr_left
  intro j _
  simp only [Function.comp, Nat.succ_eq_add_one]
  rw [show c + (j + 1) + 1 = c + 1 + j + 1 by omega]

theorem chunkPkts_append (e : Env) (file : List Nat) (c m n : Nat) :
    chunkPkts e file c m ++ chunkPkts e file (c + m) n = chunkPkts e file c (m + n) := by
  induction m generalizing c with
  | zero => simp [chunkPkts]
  | succ m ih =>
    rw [show m + 1 + n = (m + n) + 1 by omega, chunkPkts_succ, chunkPkts_succ, List.cons_append,
      show c + (m + 1) = c + 1 + m by omega, ih]

theorem chunkPkts_length (e : Env) (file : List Nat) (c m : Nat) :
    (chunkPkts e file c m).length = m := by
  simp [chunkPkts]

theorem chunkPkts_getElem? (e : Env) (file : List Nat) (c m i : Nat) (d : datagramS)
    (h : (chunkPkts e file c m)[i]? = some d) :
    i < m ∧ d = buildPkt e ((c + i + 1) % 65536) (chunk e file (c + i + 1)) := by
  have hi : i < m := by
    by_contra hge
    rw [List.getElem?_eq_none (by rw [chunkPkts_length]; omega)] at h
    exact absurd h (by simp)
  refine ⟨hi, ?_⟩
  simp only [chunkPkts, List.getElem?_map, List.getElem?_range hi, Option.map_some',
    Option.some.injEq] at h
  exact h.symm

theorem sendNext_tracks (e : Env) (file : List Nat) (c : Nat) (s : Sender)
    (h : Tracks e file c s) (hg : s.fileEOF = false) :
    Tracks e file (c + 1) (sendNext e s)
      ∧ (sendNext e s).sent
          = s.sent ++ [buildPkt e ((c + 1) % 65536) (chunk e file (c + 1))]
      ∧ (sendNext e s).fileEOF = false := by
  obtain ⟨h1, h2, _⟩ := h
  refine ⟨⟨?_, ?_, ?_⟩, ?_, hg⟩
  · simp only [sendNext, h1, List.drop_drop, Nat.succ_mul]
  · simp only [sendNext, h2]; omega
  · intro hc
    simp only [sendNext] at hc
    rw [hg] at hc
    exact absurd hc (by simp)
  · simp only [sendNext, h1, h2, chunk, Nat.add_sub_cancel]

theorem fillLoop_tracks (e : Env) (file : List Nat) (fuel c : Nat) (s : Sender)
    (h : Tracks e file c s) :
    ∃ m, Tracks e file (c + m) (fillLoop e fuel s)
      ∧ (fillLoop e fuel s).sent = s.sent ++ chunkPkts e file c m
      ∧ ∀ j, j < m → chunk e file (c + j + 1) ≠ [] := by
  induction fuel generalizing s c with
  | zero => exact ⟨0, h, by simp [fillLoop, chunkPkts], by intro j hj; omega⟩
  | succ n ih =>
    simp only [fillLoop]
    split_ifs with hg hr
    · refine ⟨0, ⟨h.1, h.2.1, fun _ => hr⟩, by simp [chunkPkts], by intro j hj; omega⟩
    · obtain ⟨ht, hs, _⟩ := sendNext_tracks e file c s h hg.1
      obtain ⟨m, hm1, hm2, hm3⟩ := ih (c + 1) _ ht
      refine ⟨m + 1, ?_, ?_, ?_⟩
      · rw [show c + (m + 1) = c + 1 + m by omega]; exact hm1
      · rw [hm2, hs, chunkPkts_succ, List.append_assoc, List.singleton_append]
      · intro j hj
        cases j with
        | zero =>
          intro hc
          apply hr
          rw [h.1]
          simp only [chunk, Nat.add_sub_cancel, Nat.add_zero] at hc
          rw [hc]
          simp
        | succ j =>
          have := hm3 j (by omega)
          rwa [show c + 1 + j + 1 = c + (j + 1) + 1 by omega] at this
    · exact ⟨0, h, by simp [chunkPkts], by intro j hj; omega⟩

theorem processAck_tracks (e : Env) (file : List Nat) (c : Nat) (ack : datagramS) (s : Sender)
    (h : Tracks e file c s) : Tracks e file c (processAck e ack s) := by
  dsimp only [processAck]
  split_ifs <;> exact h

theorem drain_tracks (e : Env) (file : List Nat) (c : Nat) (rx : List datagramS) (s : Sender)
    (h : Tracks e file c s) : Tracks e file c (drain e rx s) := by
  induction rx generalizing s with
  | nil => exact h
  | cons a rx ih => exact ih _ (processAck_tracks e file c a s h)

theorem timeoutCheck_tracks (e : Env) (file : List Nat) (c : Nat) (elapsed : Bool) (s : Sender)
    (h : Tracks e file c s) : Tracks e file c (timeoutCheck elapsed s) := by
  unfold timeoutCheck
  split_ifs <;> exact h

theorem runPhases_tracks (e : Env) (file : List Nat) (ps : List Phase) (c : Nat) (s : Sender)
    (h : Tracks e file c s) :
    ∃ m, Tracks e file (c + m) (runPhases e ps s)
      ∧ firstSends e ps s = chunkPkts e file c m
      ∧ ∀ j, j < m → chunk e file (c + j + 1) ≠ [] := by
  induction ps generalizing s c with
  | nil => exact ⟨0, h, by simp [firstSends, chunkPkts], by intro j hj; omega⟩
  | cons p ps ih =>
    cases p with
    | fill =>
      obtain ⟨m, hm1, hm2, hm3⟩ := fillLoop_tracks e file (s.input.length + 1) c s h
      obtain ⟨n, hn1, hn2, hn3⟩ := ih (c + m) (fill e s) hm1
      refine ⟨m + n, ?_, ?_, ?_⟩
      · rw [← Nat.add_assoc]; exact hn1
      · simp only [firstSends, phase, fillSends, fill, hm2, List.drop_left]
        rw [← chunkPkts_append]
        exact congrArg _ hn2
      · intro j hj
        by_cases hjm : j < m
        · exact hm3 j hjm
        · have := hn3 (j - m) (by omega)
          rwa [show c + m + (j - m) + 1 = c + j + 1 by omega] at this
    | drain rx =>
      obtain ⟨n, hn1, hn2, hn3⟩ := ih c _ (drain_tracks e file c rx s h)
      exact ⟨n, hn1, by simpa [firstSends, phase] using hn2, hn3⟩
    | timeout el =>
      obtain ⟨n, hn1, hn2, hn3⟩ := ih c _ (timeoutCheck_tracks e file c el s h)
      exact ⟨n, hn1, by simpa [firstSends, phase] using hn2, hn3⟩

theorem init_tracks (e : Env) (file : List Nat) : Tracks e file 0 (init e file) := by
  refine ⟨by simp [init], by simp [init], ?_⟩
  intro h
  simp [init] at h

theorem chunk_eq_nil_of_tracks (e : Env) (file : List Nat) (c : Nat) (s : Sender)
    (h : Tracks e file c s) (heof : s.fileEOF = true) (k : Nat) (hk : c < k) :
    chunk e file k = [] := by
  obtain ⟨h1, _, h3⟩ := h
  have h0 := h3 heof
  simp only [List.length_take, h1, List.length_drop] at h0
  have hlen : (chunk e file k).length = 0 := by
    simp only [chunk, List.length_take, List.length_drop]
    have hmul : c * e.MAX_PAYLOAD_LENGTH ≤ (k - 1) * e.MAX_PAYLOAD_LENGTH :=
      Nat.mul_le_mul_right _ (by omega)
    omega
  exact List.length_eq_zero.mp hlen

theorem chunkPkts_getElem?_of_lt (e : Env) (file : List Nat) (c m i : Nat) (hi : i < m) :
    (chunkPkts e file c m)[i]?
      = some (buildPkt e ((c + i + 1) % 65536) (chunk e file (c + i + 1))) := by
  simp only [chunkPkts, List.getElem?_map, List.getElem?_range hi, Option.map_some']

theorem processAck_base_of_advance (e : Env) (ack : datagramS) (s : Sender)
    (hv : e.validateChecksum ack = true) (hnew : s.base < (ack.ackNum + 1) % 65536) :
    (processAck e ack s).base = (ack.ackNum + 1) % 65536 := by
  dsimp only [processAck]
  rw [if_neg (by simp [hv]), if_pos hnew]
  split_ifs <;> rfl

theorem timeoutCheck_fileEOF (elapsed : Bool) (s : Sender) :
    (timeoutCheck elapsed s).fileEOF = s.fileEOF := by
  unfold timeoutCheck
  split_ifs <;> rfl

theorem bigFile_chunk_first : chunk sampleEnv bigFile 1 = [0, 0] := by
  have h : sampleEnv.MAX_PAYLOAD_LENGTH = 2 := rfl
  simp only [chunk, h, bigFile, Nat.sub_self, Nat.zero_mul, List.drop_zero]
  rw [List.take_append_of_le_length (by rw [List.length_replicate]; norm_num),
    List.take_replicate]
  rfl

theorem bigFile_chunk_last : chunk sampleEnv bigFile 65537 = [1] := by
  have h : sampleEnv.MAX_PAYLOAD_LENGTH = 2 := rfl
  simp only [chunk, h, bigFile]
  rw [List.drop_left' (by rw [List.length_replicate])]
  rfl

theorem overAck_fileEOF (e : Env) (file : List Nat) (ack : datagramS)
    (hv : e.validateChecksum ack = true) (hack : (ack.ackNum + 1) % 65536 = 65535) :
    (runPhases e (phasesOf [([ack], false), ([], false)]) (init e file)).fileEOF = true := by
  have hrun : runPhases e (phasesOf [([ack], false), ([], false)]) (init e file)
      = timeoutCheck false (fill e (timeoutCheck false
          (processAck e ack (fill e (init e file))))) := by
    simp only [phasesOf, runPhases, phase, drain]
  rw [hrun, timeoutCheck_fileEOF]
  have hb1 : (fill e (init e file)).base = 1 := fillLoop_base _ _ _
  have hb2 : (processAck e ack (fill e (init e file))).base = 65535 := by
    rw [processAck_base_of_advance _ _ _ hv (by rw [hb1, hack]; norm_num), hack]
  have hb3 := timeoutCheck_base false (processAck e ack (fill e (init e file)))
  rw [hb2] at hb3
  obtain ⟨m, hT, _, _⟩ := runPhases_tracks e file
    [Phase.fill, Phase.drain [ack], Phase.timeout false, Phase.fill] 0
    (init e file) (init_tracks e file)
  have hT2 : (fill e (timeoutCheck false (processAck e ack
      (fill e (init e file))))).nextSeqNum = (0 + m + 1) % 65536 := hT.2.1
  have hg := fill_guard_false e _ (timeoutCheck false (processAck e ack
      (fill e (init e file)))) (Nat.lt_succ_self _)
  have hb4 : (fill e (timeoutCheck false (processAck e ack
      (fill e (init e file))))).base = 65535 := by
    rw [fill, fillLoop_base]; exact hb3
  have hlt : (0 + m + 1) % 65536 < 65536 := Nat.mod_lt _ (by norm_num)
  by_contra hne
  apply hg
  refine ⟨by simpa using hne, ?_⟩
  show (fill e _).nextSeqNum < (fill e _).base + WINDOW_SIZE
  rw [hT2, hb4]
  simp only [WINDOW_SIZE]
  omega

theorem overAck_firstSends (e : Env) (file : List Nat) (ack : datagramS)
    (hv : e.validateChecksum ack = true) (hack : (ack.ackNum + 1) % 65536 = 65535)
    (hlast : chunk e file 65537 ≠ []) :
    ((firstSends e (phasesOf [([ack], false), ([], false)]) (init e file))[65535]?).map
        (fun d => d.seqNum) = some 0
      ∧ (firstSends e (phasesOf [([ack], false), ([], false)]) (init e file))[0]?
          = some (buildPkt e 1 (chunk e file 1))
      ∧ (firstSends e (phasesOf [([ack], false), ([], false)]) (init e file))[65536]?
          = some (buildPkt e 1 (chunk e file 65537)) := by
  obtain ⟨m, hT, hfs, _⟩ := runPhases_tracks e file (phasesOf [([ack], false), ([], false)]) 0
    (init e file) (init_tracks e file)
  have hm : 65537 ≤ m := by
    by_contra hlt
    exact hlast (chunk_eq_nil_of_tracks e file (0 + m) _ hT
      (overAck_fileEOF e file ack hv hack) 65537 (by omega))
  rw [hfs, chunkPkts_getElem?_of_lt _ _ _ _ _ (show 65535 < m by omega),
    chunkPkts_getElem?_of_lt _ _ _ _ _ (show 0 < m by omega),
    chunkPkts_getElem?_of_lt _ _ _ _ _ (show 65536 < m by omega)]
  refine ⟨?_, ?_, ?_⟩
  · simp only [Option.map_some', buildPkt]
  · rfl
  · rfl

/-- C9, as stated, fails at the 65536-th chunk: for the file `bigFile` of 65537
chunks, after a valid datagram with `ackNum = 65534` has opened the window,
the 65536-th chunk is first transmitted with `seqNum = 0`, and the 65537-th
chunk (the byte 1) with `seqNum = 1`, the sequence number of the first chunk
(two zero bytes). -/
theorem seqNum_wrap_counterexample :
    ((firstSends sampleEnv (phasesOf wrapInputs) (init sampleEnv bigFile))[65535]?).map
        (fun d => d.seqNum) = some 0
      ∧ ((firstSends sampleEnv (phasesOf wrapInputs) (init sampleEnv bigFile))[0]?).map
        (fun d => (d.seqNum, d.data)) = some (1, [0, 0])
      ∧ ((firstSends sampleEnv (phasesOf wrapInputs) (init sampleEnv bigFile))[65536]?).map
        (fun d => (d.seqNum, d.data)) = some (1, [1, 0]) := by
  obtain ⟨h1, h2, h3⟩ := overAck_firstSends sampleEnv bigFile (sampleAck 65534)
    (by decide) (by decide) (by rw [bigFile_chunk_last]; simp)
  simp only [wrapInputs]
  rw [h2, h3, bigFile_chunk_first, bigFile_chunk_last]
  exact ⟨h1, rfl, rfl⟩

/-- C9, amended (sequence numbers of the first transmissions). For every file
and every run of phases, the datagram in which the `k`-th chunk (`k ≥ 1`) is
first transmitted is built from a non-empty chunk, has
`seqNum = k mod 65536`, so `seqNum = k` when `k ≤ 65535`, has `ackNum = 0`, a
payload that starts with the chunk, and the checksum that `computeChecksum`
gives for it with a zero checksum field; the sequence numbers of the first
65535 chunks are strictly increasing, so none is used twice; and once the end
of the file has been seen every non-empty chunk has been transmitted. -/
theorem first_transmission (e : Env) (file : List Nat) (ps : List Phase) :
    (∀ (k : Nat) (d : datagramS), 1 ≤ k →
        (firstSends e ps (init e file))[k - 1]? = some d →
          chunk e file k ≠ []
            ∧ d = buildPkt e (k % 65536) (chunk e file k)
            ∧ d.seqNum = k % 65536
            ∧ (k ≤ 65535 → d.seqNum = k)
            ∧ d.ackNum = 0
            ∧ d.data.take (chunk e file k).length = chunk e file k
            ∧ d.checksum = e.computeChecksum { d with checksum := 0 })
      ∧ (∀ (k k' : Nat) (d d' : datagramS), 1 ≤ k → k < k' → k' ≤ 65535 →
          (firstSends e ps (init e file))[k - 1]? = some d →
          (firstSends e ps (init e file))[k' - 1]? = some d' → d.seqNum < d'.seqNum)
      ∧ ((runPhases e ps (init e file)).fileEOF = true →
          ∀ k : Nat, 1 ≤ k → chunk e file k ≠ [] →
            ∃ d, (firstSends e ps (init e file))[k - 1]? = some d) := by
  obtain ⟨m, hT, hfs, hne⟩ := runPhases_tracks e file ps 0 (init e file) (init_tracks e file)
  have key : ∀ (k : Nat) (d : datagramS), 1 ≤ k →
      (firstSends e ps (init e file))[k - 1]? = some d →
        k - 1 < m ∧ d = buildPkt e (k % 65536) (chunk e file k) := by
    intro k d hk hd
    rw [hfs] at hd
    obtain ⟨h1, h2⟩ := chunkPkts_getElem? e file 0 m (k - 1) d hd
    rw [show 0 + (k - 1) + 1 = k by omega] at h2
    exact ⟨h1, h2⟩
  refine ⟨?_, ?_, ?_⟩
  · intro k d hk hd
    obtain ⟨h1, h2⟩ := key k d hk hd
    have hc := hne (k - 1) h1
    rw [show 0 + (k - 1) + 1 = k by omega] at hc
    subst h2
    refine ⟨hc, rfl, rfl, ?_, rfl, ?_, rfl⟩
    · intro hk2
      exact Nat.mod_eq_of_lt (by omega)
    · simp only [buildPkt, List.take_left']
  · intro k k' d d' hk hkk hk' hd hd'
    rw [(key k d hk hd).2, (key k' d' (by omega) hd').2]
    show k % 65536 < k' % 65536
    omega
  · intro heof k hk hc
    have hkm : k - 1 < m := by
      by_contra hge
      exact hc (chunk_eq_nil_of_tracks e file (0 + m) _ hT heof k (by omega))
    rw [hfs, chunkPkts_getElem?_of_lt e file 0 m (k - 1) hkm]
    exact ⟨_, rfl⟩

/-- Witness for the amended C9: the second chunk of `sampleFile`. -/
theorem first_transmission_witness :
    (1 : Nat) ≤ 2
      ∧ (firstSends sampleEnv (phasesOf sampleInputs) (init sampleEnv sampleFile))[2 - 1]?
          = some (buildPkt sampleEnv 2 [3, 4])
      ∧ (buildPkt sampleEnv 2 [3, 4]).seqNum = 2 :=
  ⟨by decide, by decide,
    ((first_transmission sampleEnv sampleFile (phasesOf sampleInputs)).1 2
      (buildPkt sampleEnv 2 [3, 4]) (by decide) (by decide)).2.2.2.1 (by decide)⟩

/-! ## Command-line handling -/

/-- C10 at the command line `-f a -f b`: the host option is absent, and the
argument handling does not end with the usage error; it goes on to open the
file `b` and to construct the transport with the empty host name and the
port 12345. -/
theorem argHandling_repeated_file (stoi : String → Option Int) :
    argHandling stoi [('f', "a"), ('f', "b")]
      = Outcome.proceed
          { portNum := 12345, hostname := "", inputFilename := "b", requiredArgumentCount := 2,
            LOG_LEVEL := none, usagePrinted := false } := by
  simp [argHandling, parseLoop, Args.defaults]

theorem parseLoop_count (stoi : String → Option Int) (opts : List (Char × String)) (a b : Args)
    (h : parseLoop stoi opts a = some b) :
    b.requiredArgumentCount
      = a.requiredArgumentCount
        + ((opts.filter (fun o => decide (o.1 = 'h') || decide (o.1 = 'f'))).length : Int) := by
  induction opts generalizing a with
  | nil =>
    simp only [parseLoop, Option.some.injEq] at h
    subst h
    simp
  | cons o rest ih =>
    simp only [parseLoop] at h
    split_ifs at h with hp hh hd hf
    · cases hs : stoi o.2 with
      | none => rw [hs] at h; exact absurd h (by simp)
      | some v =>
        rw [hs] at h
        have := ih _ h
        simp [List.filter_cons, hp] at this ⊢
        exact this
    · have := ih _ h
      simp [List.filter_cons, hh] at this ⊢
      rw [this]; ring
    · cases hs : stoi o.2 with
      | none => rw [hs] at h; exact absurd h (by simp)
      | some v =>
        rw [hs] at h
        have := ih _ h
        simp [List.filter_cons, hd] at this ⊢
        exact this
    · have := ih _ h
      simp [List.filter_cons, hf] at this ⊢
      rw [this]; ring
    · have := ih _ h
      simp [List.filter_cons, hh, hf] at this ⊢
      exact this

theorem parseLoop_portNum (stoi : String → Option Int) (opts : List (Char × String)) (a b : Args)
    (h : parseLoop stoi opts a = some b) (hp : ∀ o ∈ opts, o.1 ≠ 'p') :
    b.portNum = a.portNum := by
  induction opts generalizing a with
  | nil =>
    simp only [parseLoop, Option.some.injEq] at h
    subst h
    rfl
  | cons o rest ih =>
    have ho := hp o (List.mem_cons_self _ _)
    have hrest : ∀ o ∈ rest, o.1 ≠ 'p' := fun x hx => hp x (List.mem_cons_of_mem _ hx)
    simp only [parseLoop, if_neg ho] at h
    split_ifs at h with hh hd hf
    · have := ih _ h hrest
      exact this
    · cases hs : stoi o.2 with
      | none => rw [hs] at h; exact absurd h (by simp)
      | some v =>
        rw [hs] at h
        have := ih _ h hrest
        exact this
    · have := ih _ h hrest
      exact this
    · have := ih _ h hrest
      exact this

/-- The argument handling goes on to line 80 exactly when no `std::stoi`
throws and the options `-h` and `-f` occur twice in total; when `-h` or `-f`
is absent and the other is not repeated it ends with the usage error, and
without `-p` the port is 12345. -/
theorem argHandling_proceed (stoi : String → Option Int) (opts : List (Char × String))
    (a : Args) (h : argHandling stoi opts = Outcome.proceed a) :
    (opts.filter (fun o => decide (o.1 = 'h') || decide (o.1 = 'f'))).length = 2
      ∧ ((∀ o ∈ opts, o.1 ≠ 'p') → a.portNum = 12345) := by
  unfold argHandling at h
  cases hl : parseLoop stoi opts Args.defaults with
  | none => rw [hl] at h; exact absurd h (by simp)
  | some b =>
    rw [hl] at h
    simp only at h
    split_ifs at h with hc
    simp only [Outcome.proceed.injEq] at h
    subst h
    have hcount := parseLoop_count stoi opts _ _ hl
    have hc2 : b.requiredArgumentCount = 2 := by simpa using hc
    refine ⟨?_, fun hp => parseLoop_portNum stoi opts _ _ hl hp⟩
    rw [hc2] at hcount
    simp only [Args.defaults, zero_add] at hcount
    exact_mod_cast hcount.symm

/-! ## Drain computes a maximum -/

theorem processAck_base_eq_max (e : Env) (ack : datagramS) (s : Sender) :
    (processAck e ack s).base
      = if e.validateChecksum ack = true then max s.base ((ack.ackNum + 1) % 65536)
        else s.base := by
  dsimp only [processAck]
  split_ifs with h1 h2 h3 h4 h5 h6
  all_goals first
    | rfl
    | (simp only [max_def]; split_ifs <;> first | rfl | omega)
    | (exfalso; simp_all)

theorem ackMax_cons (e : Env) (a : datagramS) (rx : List datagramS) (b : Nat) :
    ackMax e (a :: rx) b
      = if e.validateChecksum a = true then max ((a.ackNum + 1) % 65536) (ackMax e rx b)
        else ackMax e rx b := by
  unfold ackMax
  by_cases h : e.validateChecksum a = true
  · simp [List.filter_cons, h]
  · simp [List.filter_cons, h]

theorem ackMax_base_max (e : Env) (rx : List datagramS) (b v : Nat) :
    ackMax e rx (max b v) = max (ackMax e rx b) v := by
  induction rx with
  | nil => simp [ackMax]
  | cons a rx ih =>
    rw [ackMax_cons, ackMax_cons, ih]
    split_ifs
    · rw [max_assoc]
    · rfl

theorem drain_base_eq_ackMax (e : Env) (rx : List datagramS) (s : Sender) :
    (drain e rx s).base = ackMax e rx s.base := by
  induction rx generalizing s with
  | nil => simp [drain, ackMax]
  | cons a rx ih =>
    simp only [drain]
    rw [ih, processAck_base_eq_max, ackMax_cons]
    split_ifs
    · rw [ackMax_base_max, max_comm]
    · rfl

theorem ackMax_le_iff (e : Env) (rx : List datagramS) (b v : Nat) :
    ackMax e rx b ≤ v
      ↔ b ≤ v ∧ ∀ a ∈ rx, e.validateChecksum a = true → (a.ackNum + 1) % 65536 ≤ v := by
  induction rx with
  | nil => simp [ackMax]
  | cons a rx ih =>
    rw [ackMax_cons]
    split_ifs with h
    · rw [max_le_iff, ih]
      simp only [List.mem_cons, forall_eq_or_imp]
      tauto
    · rw [ih]
      simp only [List.mem_cons, forall_eq_or_imp]
      tauto

theorem ackMax_congr (e : Env) (rx ry : List datagramS) (b : Nat)
    (h : ∀ a, a ∈ rx ↔ a ∈ ry) : ackMax e rx b = ackMax e ry b := by
  apply le_antisymm
  · rw [ackMax_le_iff]
    have := (ackMax_le_iff e ry b (ackMax e ry b)).1 le_rfl
    exact ⟨this.1, fun a ha hv => this.2 a ((h a).1 ha) hv⟩
  · rw [ackMax_le_iff]
    have := (ackMax_le_iff e rx b (ackMax e rx b)).1 le_rfl
    exact ⟨this.1, fun a ha hv => this.2 a ((h a).2 ha) hv⟩

/-- C15 (Drain computes a maximum). For every starting state and every list of
received datagrams, `base` after the Drain is the maximum of the starting
`base` and of `ackNum + 1`, truncated to 16 bits, over the datagrams that pass
`validateChecksum`; so two lists that are permutations of each other, and more
generally two lists with the same members (duplicates added or removed), give
the same final `base`. -/
theorem drain_base_max (e : Env) (rx : List datagramS) (s : Sender) :
    (drain e rx s).base = ackMax e rx s.base
      ∧ (∀ ry : List datagramS, rx.Perm ry → (drain e ry s).base = (drain e rx s).base)
      ∧ (∀ ry : List datagramS, (∀ a, a ∈ rx ↔ a ∈ ry) →
          (drain e ry s).base = (drain e rx s).base) := by
  refine ⟨drain_base_eq_ackMax e rx s, ?_, ?_⟩
  · intro ry hp
    rw [drain_base_eq_ackMax, drain_base_eq_ackMax]
    exact (ackMax_congr e rx ry s.base (fun a => hp.mem_iff)).symm
  · intro ry h
    rw [drain_base_eq_ackMax, drain_base_eq_ackMax]
    exact (ackMax_congr e rx ry s.base h).symm

/-- Witness for C15: a reordered queue with a duplicate and a corrupt datagram. -/
theorem drain_base_max_witness :
    (∀ a, a ∈ [sampleAck 1, corruptAck 7, sampleAck 3]
        ↔ a ∈ [sampleAck 3, sampleAck 1, sampleAck 3, corruptAck 7])
      ∧ (drain sampleEnv [sampleAck 3, sampleAck 1, sampleAck 3, corruptAck 7]
            (fill sampleEnv (init sampleEnv sampleFile))).base
          = (drain sampleEnv [sampleAck 1, corruptAck 7, sampleAck 3]
            (fill sampleEnv (init sampleEnv sampleFile))).base
      ∧ (drain sampleEnv [sampleAck 1, corruptAck 7, sampleAck 3]
            (fill sampleEnv (init sampleEnv sampleFile))).base = 4 := by
  have hmem : ∀ a, a ∈ [sampleAck 1, corruptAck 7, sampleAck 3]
      ↔ a ∈ [sampleAck 3, sampleAck 1, sampleAck 3, corruptAck 7] := by
    intro a
    simp only [List.mem_cons, List.mem_singleton, List.not_mem_nil, or_false]
    tauto
  exact ⟨hmem,
    (drain_base_max sampleEnv [sampleAck 1, corruptAck 7, sampleAck 3]
      (fill sampleEnv (init sampleEnv sampleFile))).2.2 _ hmem, by decide⟩

/-! ## The timer is armed while datagrams are outstanding -/

theorem sendNext_running (e : Env) (s : Sender) (h : Armed s) :
    (sendNext e s).rto.running = true := by
  simp only [sendNext]
  split_ifs with hb
  · rfl
  · cases hr : s.rto.running with
    | true => rfl
    | false => exact absurd (h hr) hb

theorem fillLoop_armed (e : Env) (fuel : Nat) (s : Sender) (h : Armed s) :
    Armed (fillLoop e fuel s) := by
  induction fuel generalizing s with
  | zero => exact h
  | succ n ih =>
    simp only [fillLoop]
    split_ifs with hg hr
    · exact h
    · apply ih
      intro hc
      rw [sendNext_running e s h] at hc
      exact absurd hc (by simp)
    · exact h

theorem processAck_armed (e : Env) (ack : datagramS) (s : Sender) (h : Armed s) :
    Armed (processAck e ack s) := by
  dsimp only [processAck]
  split_ifs with h1 h2 h3
  · exact h
  · intro _; exact h3
  · intro hc; exact absurd hc (by simp [timerC.start])
  · exact h

theorem drain_armed (e : Env) (rx : List datagramS) (s : Sender) (h : Armed s) :
    Armed (drain e rx s) := by
  induction rx generalizing s with
  | nil => exact h
  | cons a rx ih => exact ih _ (processAck_armed e a s h)

theorem timeoutCheck_armed (elapsed : Bool) (s : Sender) (h : Armed s) :
    Armed (timeoutCheck elapsed s) := by
  unfold timeoutCheck
  split_ifs with hexp
  · intro hc; exact absurd hc (by simp [timerC.start])
  · have hsame : (s.rto.timeout elapsed).2 = s.rto := by
      unfold timerC.timeout at hexp ⊢
      split_ifs at hexp ⊢ with hc
      · exact absurd rfl hexp
      · rfl
    intro hc
    simp only [hsame] at hc
    exact h hc

theorem runPhases_armed (e : Env) (ps : List Phase) (s : Sender) (h : Armed s) :
    Armed (runPhases e ps s) := by
  induction ps generalizing s with
  | nil => exact h
  | cons p ps ih =>
    apply ih
    cases p with
    | fill => exact fillLoop_armed e _ s h
    | drain rx => exact drain_armed e rx s h
    | timeout el => exact timeoutCheck_armed el s h

/-- C16 (timer armed while datagrams are outstanding). With the timer modelled
as stopped or running (`start()` makes it running, `stop()` makes it stopped,
an expiry is reported only while it is running and leaves it not running until
it is started again), after every phase of every run from the initial state,
whatever is received and whenever the duration elapses, `base < nextSeqNum`
implies that the timer is running. -/
theorem timer_armed (e : Env) (file : List Nat) (ps : List Phase) :
    ((runPhases e ps (init e file)).base < (runPhases e ps (init e file)).nextSeqNum →
        (runPhases e ps (init e file)).rto.running = true)
      ∧ (∀ t : timerC, t.start.running = true ∧ t.stop.running = false
          ∧ ∀ elapsed : Bool, (t.timeout elapsed).1 = true →
              t.running = true ∧ (t.timeout elapsed).2.running = false) := by
  refine ⟨?_, ?_⟩
  · intro hlt
    have h := runPhases_armed e ps (init e file) (fun _ => rfl)
    cases hr : (runPhases e ps (init e file)).rto.running with
    | true => rfl
    | false => have := h hr; omega
  · intro t
    refine ⟨rfl, rfl, ?_⟩
    intro elapsed hexp
    unfold timerC.timeout at hexp ⊢
    split_ifs at hexp ⊢ with hc
    exact ⟨hc.1, rfl⟩

/-- Witness for C16: three datagrams outstanding after an expiry and one
acknowledgement. -/
theorem timer_armed_witness :
    (runPhases sampleEnv [.fill, .timeout true, .drain [sampleAck 1]] (init sampleEnv sampleFile)).base
        < (runPhases sampleEnv [.fill, .timeout true, .drain [sampleAck 1]]
            (init sampleEnv sampleFile)).nextSeqNum
      ∧ (runPhases sampleEnv [.fill, .timeout true, .drain [sampleAck 1]]
            (init sampleEnv sampleFile)).rto.running = true :=
  ⟨by decide,
    (timer_armed sampleEnv sampleFile [.fill, .timeout true, .drain [sampleAck 1]]).1 (by decide)⟩

/-! ## Payload length -/

/-- C17 (payload length narrowing). The datagram that Fill builds for a chunk
of `n` bytes has `payloadLength = n mod 256`; when `1 ≤ n ≤ MAX_PAYLOAD_LENGTH`
and `MAX_PAYLOAD_LENGTH ≤ 255` this is `n` and is not 0; and then, in every
transfer that completes, the datagram sent last (the end marker) has
`payloadLength = 0` and no datagram sent before it has. -/
theorem payloadLength_narrowing (e : Env) :
    (∀ (q : Nat) (c : List Nat), (buildPkt e q c).payloadLength = c.length % 256)
      ∧ (∀ s : Sender, ¬ (s.input.take e.MAX_PAYLOAD_LENGTH).length ≤ 0 →
          (sendNext e s).sent
            = s.sent ++ [buildPkt e s.nextSeqNum (s.input.take e.MAX_PAYLOAD_LENGTH)]
          ∧ 1 ≤ (s.input.take e.MAX_PAYLOAD_LENGTH).length
          ∧ (s.input.take e.MAX_PAYLOAD_LENGTH).length ≤ e.MAX_PAYLOAD_LENGTH)
      ∧ (e.MAX_PAYLOAD_LENGTH ≤ 255 →
          (∀ (q : Nat) (c : List Nat), 1 ≤ c.length → c.length ≤ e.MAX_PAYLOAD_LENGTH →
            (buildPkt e q c).payloadLength = c.length ∧ (buildPkt e q c).payloadLength ≠ 0)
          ∧ ∀ (file : List Nat) (inputs : List (List datagramS × Bool)) (t : Sender),
              transfer e file inputs = some t →
                ∃ (pre : List datagramS) (fin : datagramS),
                  t.sent = pre ++ [fin] ∧ fin.payloadLength = 0
                    ∧ ∀ d ∈ pre, d.payloadLength ≠ 0) := by
  refine ⟨fun q c => rfl, ?_, ?_⟩
  · intro s hr
    refine ⟨rfl, by omega, ?_⟩
    simp only [List.length_take]
    omega
  · intro hM
    refine ⟨?_, ?_⟩
    · intro q c h1 h2
      have hc : (buildPkt e q c).payloadLength = c.length % 256 := rfl
      rw [hc, Nat.mod_eq_of_lt (by omega)]
      exact ⟨rfl, by omega⟩
    · intro file inputs t ht
      simp only [transfer, Option.map_eq_some'] at ht
      obtain ⟨u, hu, rfl⟩ := ht
      obtain ⟨k, hk, _⟩ := mainLoop_exit e inputs _ u hu
      refine ⟨u.sent, _, rfl, rfl, ?_⟩
      rw [hk]
      exact (runPhases_filled e hM _ _ (init_filled e file)).2.2.2.1

/-- Witness for C17: the transfer of `sampleFile`, whose last chunk has one
byte. -/
theorem payloadLength_narrowing_witness :
    sampleEnv.MAX_PAYLOAD_LENGTH ≤ 255
      ∧ (transfer sampleEnv sampleFile sampleInputs).isSome = true
      ∧ ∀ t : Sender, transfer sampleEnv sampleFile sampleInputs = some t →
          ∃ (pre : List datagramS) (fin : datagramS),
            t.sent = pre ++ [fin] ∧ fin.payloadLength = 0 ∧ ∀ d ∈ pre, d.payloadLength ≠ 0 :=
  ⟨by decide, by decide,
    fun t ht => ((payloadLength_narrowing sampleEnv).2.2 (by decide)).2 sampleFile sampleInputs t ht⟩

/-! ## Facts about single phases used by the scenarios -/

theorem processAck_fileEOF (e : Env) (ack : datagramS) (s : Sender) :
    (processAck e ack s).fileEOF = s.fileEOF := by
  dsimp only [processAck]
  split_ifs <;> rfl

theorem processAck_sent (e : Env) (ack : datagramS) (s : Sender) :
    (processAck e ack s).sent = s.sent := by
  dsimp only [processAck]
  split_ifs <;> rfl

theorem processAck_input (e : Env) (ack : datagramS) (s : Sender) :
    (processAck e ack s).input = s.input := by
  dsimp only [processAck]
  split_ifs <;> rfl

theorem processAck_window (e : Env) (ack : datagramS) (s : Sender) :
    (processAck e ack s).window = s.window := by
  dsimp only [processAck]
  split_ifs <;> rfl

theorem drain_fileEOF (e : Env) (rx : List datagramS) (s : Sender) :
    (drain e rx s).fileEOF = s.fileEOF := by
  induction rx generalizing s with
  | nil => rfl
  | cons a rx ih => simp only [drain]; rw [ih, processAck_fileEOF]

theorem drain_sent (e : Env) (rx : List datagramS) (s : Sender) :
    (drain e rx s).sent = s.sent := by
  induction rx generalizing s with
  | nil => rfl
  | cons a rx ih => simp only [drain]; rw [ih, processAck_sent]

theorem drain_input (e : Env) (rx : List datagramS) (s : Sender) :
    (drain e rx s).input = s.input := by
  induction rx generalizing s with
  | nil => rfl
  | cons a rx ih => simp only [drain]; rw [ih, processAck_input]

theorem drain_window (e : Env) (rx : List datagramS) (s : Sender) :
    (drain e rx s).window = s.window := by
  induction rx generalizing s with
  | nil => rfl
  | cons a rx ih => simp only [drain]; rw [ih, processAck_window]

theorem timeoutCheck_sent_of_le (elapsed : Bool) (s : Sender) (h : s.nextSeqNum ≤ s.base) :
    (timeoutCheck elapsed s).sent = s.sent := by
  unfold timeoutCheck
  split_ifs
  · simp only [Nat.sub_eq_zero_of_le h, retransmit, List.append_nil]
  · rfl

theorem timeoutCheck_false (s : Sender) : timeoutCheck false s = s := by
  simp [timeoutCheck, timerC.timeout]

theorem fill_of_empty_read (e : Env) (s : Sender) (hg : s.fileEOF = false)
    (hw : s.nextSeqNum < s.base + WINDOW_SIZE)
    (h0 : (s.input.take e.MAX_PAYLOAD_LENGTH).length ≤ 0) :
    fill e s = { s with fileEOF := true } := by
  simp only [fill, fillLoop, hg, hw, and_self, if_true, h0]

theorem drain_of_acksSent_closed (e : Env) (rx : List datagramS) (s : Sender)
    (hc : s.nextSeqNum ≤ s.base) (ha : acksSent e rx s = true) : drain e rx s = s := by
  induction rx with
  | nil => rfl
  | cons a rx ih =>
    simp only [acksSent, List.all_cons, Bool.and_eq_true, Bool.or_eq_true,
      Bool.not_eq_true', decide_eq_true_eq] at ha
    have hs : processAck e a s = s := by
      rcases ha.1 with h1 | h1
      · exact processAck_of_invalid e a s h1
      · exact processAck_of_stale e a s (le_trans h1 hc)
    simp only [drain, hs]
    exact ih (by simp only [acksSent]; exact ha.2)

theorem timeoutCheck_of_not_running (elapsed : Bool) (s : Sender)
    (h : s.rto.running = false) : timeoutCheck elapsed s = s := by
  simp [timeoutCheck, timerC.timeout, h]

/-- C18 (empty input). When the first read yields zero bytes, then whatever is
received and whether or not the duration elapses: Fill sends nothing, leaves
the timer as it was constructed (never started) and leaves `nextSeqNum = 1`;
the main loop performs exactly one iteration and exits with `nextSeqNum = 1`
and nothing sent; and the only datagram of the whole transfer is the end
marker, with `seqNum = 1` and `payloadLength = 0`. When moreover no received
datagram acknowledges an unassigned sequence number, the iteration changes
nothing but `fileEOF`, so the timer is not started by Drain either. -/
theorem empty_input (e : Env) (file : List Nat)
    (h0 : (file.take e.MAX_PAYLOAD_LENGTH).length ≤ 0)
    (i : List datagramS × Bool) (is : List (List datagramS × Bool)) :
    (fill e (init e file)).sent = []
      ∧ (fill e (init e file)).rto = (init e file).rto
      ∧ (fill e (init e file)).rto.starts = 0
      ∧ (fill e (init e file)).nextSeqNum = 1
      ∧ iterations e (i :: is) (init e file) = 1
      ∧ mainLoop e (i :: is) (init e file) = some (iteration e i.1 i.2 (init e file))
      ∧ (iteration e i.1 i.2 (init e file)).nextSeqNum = 1
      ∧ (iteration e i.1 i.2 (init e file)).sent = []
      ∧ (∃ t fin, transfer e file (i :: is) = some t ∧ t.sent = [fin]
          ∧ fin.seqNum = 1 ∧ fin.ackNum = 0 ∧ fin.payloadLength = 0
          ∧ fin.checksum = e.computeChecksum { fin with checksum := 0 })
      ∧ (acksSent e i.1 (init e file) = true →
          iteration e i.1 i.2 (init e file) = { init e file with fileEOF := true }) := by
  have hfill : fill e (init e file) = { init e file with fileEOF := true } :=
    fill_of_empty_read e (init e file) rfl (by simp [init, WINDOW_SIZE]) h0
  have hn : (iteration e i.1 i.2 (init e file)).nextSeqNum = 1 := by
    simp only [iteration, timeoutCheck_nextSeqNum, drain_nextSeqNum, hfill]
    rfl
  have hb : 1 ≤ (drain e i.1 (fill e (init e file))).base := by
    have := drain_base_le e i.1 (fill e (init e file))
    rw [hfill] at this ⊢
    exact this
  have hdn : (drain e i.1 (fill e (init e file))).nextSeqNum = 1 := by
    rw [drain_nextSeqNum, hfill]; rfl
  have hs : (iteration e i.1 i.2 (init e file)).sent = [] := by
    simp only [iteration]
    rw [timeoutCheck_sent_of_le _ _ (by rw [hdn]; exact hb), drain_sent, hfill]
    rfl
  have hg : loopGuard (iteration e i.1 i.2 (init e file)) = false := by
    rw [loopGuard_false_iff]
    refine ⟨?_, ?_⟩
    · simp only [iteration, timeoutCheck_fileEOF, drain_fileEOF, hfill]
    · simp only [iteration, timeoutCheck_base, timeoutCheck_nextSeqNum]
      rw [hdn]; exact hb
  have hg0 : loopGuard (init e file) = true := rfl
  have hml : mainLoop e (i :: is) (init e file) = some (iteration e i.1 i.2 (init e file)) := by
    simp only [mainLoop, hg0, if_true]
    cases is with
    | nil => simp [mainLoop, hg]
    | cons j js => simp [mainLoop, hg]
  refine ⟨by rw [hfill]; rfl, by rw [hfill], by rw [hfill]; rfl, by rw [hfill]; rfl,
    ?_, hml, hn, hs, ?_, ?_⟩
  · simp only [iterations, hg0, if_true]
    cases is with
    | nil => rfl
    | cons j js => simp [iterations, hg]
  · refine ⟨sendFin e (iteration e i.1 i.2 (init e file)),
      { zeroDatagram e with
        seqNum := (iteration e i.1 i.2 (init e file)).nextSeqNum, ackNum := 0, payloadLength := 0
        checksum := e.computeChecksum
          { zeroDatagram e with
            seqNum := (iteration e i.1 i.2 (init e file)).nextSeqNum, ackNum := 0
            payloadLength := 0 } },
      by simp only [transfer, hml, Option.map_some'], ?_, hn, rfl, rfl, rfl⟩
    simp only [sendFin, hs, List.nil_append]
  · intro ha
    have hd : drain e i.1 { init e file with fileEOF := true }
        = { init e file with fileEOF := true } :=
      drain_of_acksSent_closed e i.1 _ (le_refl 1) ha
    simp only [iteration, hfill] at hd ⊢
    rw [hd]
    exact timeoutCheck_of_not_running _ _ rfl

/-- Witness for C18: the empty file, with an acknowledgement of an unsent
datagram in the receive queue and an elapsed duration. -/
theorem empty_input_witness :
    (([] : List Nat).take sampleEnv.MAX_PAYLOAD_LENGTH).length ≤ 0
      ∧ iterations sampleEnv [([sampleAck 5, corruptAck 2], true), ([], false)] (init sampleEnv []) = 1
      ∧ (transfer sampleEnv [] [([sampleAck 5, corruptAck 2], true), ([], false)]).map
          (fun t => t.sent.map (fun d => (d.seqNum, d.payloadLength))) = some [(1, 0)] :=
  ⟨by decide,
    (empty_input sampleEnv [] (by decide) ([sampleAck 5, corruptAck 2], true) [([], false)]).2.2.2.2.1,
    by decide⟩

/-! ## The window slots of the outstanding sequence numbers -/

theorem sendNext_slots (e : Env) (file : List Nat) (c : Nat) (s : Sender)
    (ht : Tracks e file c s) (h : Slots e file c s) : Slots e file (c + 1) (sendNext e s) := by
  obtain ⟨hw, hq⟩ := h
  obtain ⟨h1, h2, _⟩ := ht
  refine ⟨by simp only [sendNext, List.length_set]; exact hw, ?_⟩
  intro hc q hq1 hq2 hq3
  have hn : s.nextSeqNum = c + 1 := by rw [h2]; exact Nat.mod_eq_of_lt (by omega)
  have hchunk : s.input.take e.MAX_PAYLOAD_LENGTH = chunk e file (c + 1) := by
    simp only [chunk, h1, Nat.add_sub_cancel]
  have hlt : (c + 1) % WINDOW_SIZE < s.window.length := by
    rw [hw]; exact Nat.mod_lt _ (by decide)
  simp only [sendNext, hn, hchunk, List.getD_eq_getElem?_getD, List.getElem?_set]
  by_cases hidx : (c + 1) % WINDOW_SIZE = q % WINDOW_SIZE
  · have hqc : q = c + 1 := by
      simp only [WINDOW_SIZE] at hidx hq3
      omega
    rw [if_pos hidx, if_pos hlt, hqc]
    rfl
  · rw [if_neg hidx]
    have hne : q ≠ c + 1 := fun hcq => hidx (by rw [hcq])
    have := hq (by omega) q hq1 (by omega) (by omega)
    rwa [List.getD_eq_getElem?_getD] at this

theorem fillLoop_slots (e : Env) (file : List Nat) (fuel c : Nat) (s : Sender)
    (ht : Tracks e file c s) (h : Slots e file c s) :
    ∃ m, Tracks e file (c + m) (fillLoop e fuel s)
      ∧ Slots e file (c + m) (fillLoop e fuel s)
      ∧ (fillLoop e fuel s).sent = s.sent ++ chunkPkts e file c m := by
  induction fuel generalizing s c with
  | zero => exact ⟨0, ht, h, by simp [fillLoop, chunkPkts]⟩
  | succ n ih =>
    simp only [fillLoop]
    split_ifs with hg hr
    · exact ⟨0, ⟨ht.1, ht.2.1, fun _ => hr⟩, h, by simp [chunkPkts]⟩
    · obtain ⟨ht1, hs1, _⟩ := sendNext_tracks e file c s ht hg.1
      obtain ⟨m, hm1, hm2, hm3⟩ := ih (c + 1) _ ht1 (sendNext_slots e file c s ht h)
      refine ⟨m + 1, ?_, ?_, ?_⟩
      · rw [show c + (m + 1) = c + 1 + m by omega]; exact hm1
      · rw [show c + (m + 1) = c + 1 + m by omega]; exact hm2
      · rw [hm3, hs1, chunkPkts_succ, List.append_assoc, List.singleton_append]
    · exact ⟨0, ht, h, by simp [chunkPkts]⟩

theorem processAck_slots (e : Env) (file : List Nat) (c : Nat) (ack : datagramS) (s : Sender)
    (h : Slots e file c s) : Slots e file c (processAck e ack s) := by
  dsimp only [processAck]
  split_ifs <;> exact h

theorem drain_slots (e : Env) (file : List Nat) (c : Nat) (rx : List datagramS) (s : Sender)
    (h : Slots e file c s) : Slots e file c (drain e rx s) := by
  induction rx generalizing s with
  | nil => exact h
  | cons a rx ih => exact ih _ (processAck_slots e file c a s h)

theorem timeoutCheck_slots (e : Env) (file : List Nat) (c : Nat) (elapsed : Bool) (s : Sender)
    (h : Slots e file c s) : Slots e file c (timeoutCheck elapsed s) := by
  unfold timeoutCheck
  split_ifs <;> exact h

theorem runPhases_slots (e : Env) (file : List Nat) (ps : List Phase) (c : Nat) (s : Sender)
    (ht : Tracks e file c s) (h : Slots e file c s) :
    ∃ m, Tracks e file (c + m) (runPhases e ps s)
      ∧ Slots e file (c + m) (runPhases e ps s)
      ∧ firstSends e ps s = chunkPkts e file c m := by
  induction ps generalizing s c with
  | nil => exact ⟨0, ht, h, by simp [firstSends, chunkPkts]⟩
  | cons p ps ih =>
    cases p with
    | fill =>
      obtain ⟨m, hm1, hm2, hm3⟩ := fillLoop_slots e file (s.input.length + 1) c s ht h
      obtain ⟨n, hn1, hn2, hn3⟩ := ih (c + m) (fill e s) hm1 hm2
      refine ⟨m + n, ?_, ?_, ?_⟩
      · rw [← Nat.add_assoc]; exact hn1
      · rw [← Nat.add_assoc]; exact hn2
      · simp only [firstSends, phase, fillSends, fill, hm3, List.drop_left]
        rw [← chunkPkts_append]
        exact congrArg _ hn3
    | drain rx =>
      obtain ⟨n, hn1, hn2, hn3⟩ :=
        ih c _ (drain_tracks e file c rx s ht) (drain_slots e file c rx s h)
      exact ⟨n, hn1, hn2, by simpa [firstSends, phase] using hn3⟩
    | timeout el =>
      obtain ⟨n, hn1, hn2, hn3⟩ :=
        ih c _ (timeoutCheck_tracks e file c el s ht) (timeoutCheck_slots e file c el s h)
      exact ⟨n, hn1, hn2, by simpa [firstSends, phase] using hn3⟩

theorem init_slots (e : Env) (file : List Nat) : Slots e file 0 (init e file) := by
  refine ⟨by simp [init], ?_⟩
  intro _ q h1 h2
  omega

theorem runPhases_base_le (e : Env) (ps : List Phase) (s : Sender) :
    s.base ≤ (runPhases e ps s).base := by
  induction ps generalizing s with
  | nil => exact le_rfl
  | cons p ps ih => exact le_trans (phase_base_le e p s) (ih _)

/-- C14 (no stale-slot read). In every state reached from the initial state by
Fill, Drain and Timeout-check phases, whatever is received, while
`nextSeqNum` has not wrapped (at most 65534 datagrams have been sent by Fill,
so `nextSeqNum` is their number plus one): for every `q` with
`base ≤ q < nextSeqNum` the slot `window[q % WINDOW_SIZE]` holds the datagram
that Fill built and first sent for `q` (the `q`-th of the first
transmissions, built from the `q`-th chunk), its `seqNum` is `q` and lies in
`base ≤ seqNum < base + WINDOW_SIZE`; and a Timeout check that reports expiry
sends again exactly these datagrams, in order. -/
theorem no_stale_slot (e : Env) (file : List Nat) (ps : List Phase)
    (hwrap : (firstSends e ps (init e file)).length ≤ 65534) :
    (runPhases e ps (init e file)).nextSeqNum = (firstSends e ps (init e file)).length + 1
      ∧ (∀ q : Nat, (runPhases e ps (init e file)).base ≤ q →
          q < (runPhases e ps (init e file)).nextSeqNum →
            (runPhases e ps (init e file)).window.getD (q % WINDOW_SIZE) default
                = buildPkt e q (chunk e file q)
              ∧ (firstSends e ps (init e file))[q - 1]?
                = some ((runPhases e ps (init e file)).window.getD (q % WINDOW_SIZE) default)
              ∧ ((runPhases e ps (init e file)).window.getD (q % WINDOW_SIZE) default).seqNum = q
              ∧ (runPhases e ps (init e file)).base
                  ≤ ((runPhases e ps (init e file)).window.getD (q % WINDOW_SIZE) default).seqNum
              ∧ ((runPhases e ps (init e file)).window.getD (q % WINDOW_SIZE) default).seqNum
                  < (runPhases e ps (init e file)).base + WINDOW_SIZE)
      ∧ ∀ elapsed : Bool, ((runPhases e ps (init e file)).rto.timeout elapsed).1 = true →
          (timeoutCheck elapsed (runPhases e ps (init e file))).sent
            = (runPhases e ps (init e file)).sent
              ++ (List.range' (runPhases e ps (init e file)).base
                    ((runPhases e ps (init e file)).nextSeqNum
                      - (runPhases e ps (init e file)).base)).map
                  (fun q => buildPkt e q (chunk e file q)) := by
  obtain ⟨m, hT, hS, hfs⟩ := runPhases_slots e file ps 0 (init e file)
    (init_tracks e file) (init_slots e file)
  have hm : m ≤ 65534 := by
    rw [hfs, chunkPkts_length] at hwrap; exact hwrap
  have hn : (runPhases e ps (init e file)).nextSeqNum = m + 1 := by
    rw [hT.2.1]; omega
  have hb : 1 ≤ (runPhases e ps (init e file)).base := runPhases_base_le e ps (init e file)
  have hwb := runPhases_window_bound e ps (init e file) (by simp [init, WINDOW_SIZE])
  have hslot : ∀ q : Nat, (runPhases e ps (init e file)).base ≤ q →
      q < (runPhases e ps (init e file)).nextSeqNum →
        (runPhases e ps (init e file)).window.getD (q % WINDOW_SIZE) default
          = buildPkt e q (chunk e file q) := by
    intro q hq1 hq2
    have h1 : 0 + m ≤ 65534 := by omega
    have h2 : 1 ≤ q := by omega
    have h3 : q ≤ 0 + m := by omega
    have h4 : 0 + m < q + WINDOW_SIZE := by omega
    exact hS.2 h1 q h2 h3 h4
  refine ⟨?_, ?_, ?_⟩
  · rw [hn, hfs, chunkPkts_length]
  · intro q hq1 hq2
    have hslotq := hslot q hq1 hq2
    refine ⟨hslotq, ?_, ?_, ?_, ?_⟩
    · rw [hfs, chunkPkts_getElem?_of_lt e file 0 m (q - 1) (by omega), hslotq,
        show 0 + (q - 1) + 1 = q by omega, Nat.mod_eq_of_lt (by omega)]
    · rw [hslotq]; rfl
    · rw [hslotq]; exact hq1
    · rw [hslotq]; show q < _; omega
  · intro elapsed hexp
    simp only [timeoutCheck, if_pos hexp]
    rw [retransmit_eq _ _ (by omega) _ _ le_rfl]
    congr 1
    apply List.map_congr_left
    intro q hq
    rw [List.mem_range'_1] at hq
    exact hslot q hq.1 (by omega)

/-- Witness for C14: seven datagrams sent, two acknowledged, five outstanding. -/
theorem no_stale_slot_witness :
    (firstSends sampleEnv [.fill, .drain [sampleAck 2], .timeout true]
        (init sampleEnv (List.range 13))).length ≤ 65534
      ∧ (runPhases sampleEnv [.fill, .drain [sampleAck 2], .timeout true]
          (init sampleEnv (List.range 13))).base = 3
      ∧ (runPhases sampleEnv [.fill, .drain [sampleAck 2], .timeout true]
          (init sampleEnv (List.range 13))).nextSeqNum
        = (firstSends sampleEnv [.fill, .drain [sampleAck 2], .timeout true]
            (init sampleEnv (List.range 13))).length + 1 :=
  ⟨by decide, by decide,
    (no_stale_slot sampleEnv (List.range 13) [.fill, .drain [sampleAck 2], .timeout true]
      (by decide)).1⟩

/-! ## Files with a given number of chunks -/

theorem chunk_ne_nil_iff (e : Env) (file : List Nat) (k : Nat) (hk : 1 ≤ k) :
    chunk e file k ≠ [] ↔ k ≤ numChunks e file := by
  obtain ⟨j, rfl⟩ : ∃ j, k = j + 1 := ⟨k - 1, by omega⟩
  have hlen : chunk e file (j + 1) ≠ [] ↔ 0 < (chunk e file (j + 1)).length := by
    rw [List.length_pos]
  rw [hlen]
  simp only [chunk, Nat.add_sub_cancel, List.length_take, List.length_drop, numChunks]
  by_cases hM : e.MAX_PAYLOAD_LENGTH = 0
  · simp [hM]
  · have hpos : 0 < e.MAX_PAYLOAD_LENGTH := Nat.pos_of_ne_zero hM
    rw [Nat.le_div_iff_mul_le hpos, Nat.succ_mul]
    omega

theorem fillLoop_sent_prefix (e : Env) (fuel : Nat) (s : Sender) :
    ∃ new, (fillLoop e fuel s).sent = s.sent ++ new := by
  induction fuel generalizing s with
  | zero => exact ⟨[], by simp [fillLoop]⟩
  | succ n ih =>
    simp only [fillLoop]
    split_ifs with hg hr
    · exact ⟨[], by simp⟩
    · obtain ⟨new, hnew⟩ := ih (sendNext e s)
      refine ⟨buildPkt e s.nextSeqNum (s.input.take e.MAX_PAYLOAD_LENGTH) :: new, ?_⟩
      rw [hnew]
      simp only [sendNext, List.append_assoc, List.singleton_append]
    · exact ⟨[], by simp⟩

theorem fill_sent (e : Env) (s : Sender) : (fill e s).sent = s.sent ++ fillSends e s := by
  obtain ⟨new, hnew⟩ := fillLoop_sent_prefix e (s.input.length + 1) s
  simp only [fillSends, fill, hnew, List.drop_left]

theorem runPhases_sent_of_quiet (e : Env) (ps : List Phase) (s : Sender)
    (hq : ∀ p ∈ ps, p ≠ Phase.timeout true) :
    (runPhases e ps s).sent = s.sent ++ firstSends e ps s := by
  induction ps generalizing s with
  | nil => simp [runPhases, firstSends]
  | cons p ps ih =>
    have hps : ∀ q ∈ ps, q ≠ Phase.timeout true := fun q hq' => hq q (List.mem_cons_of_mem _ hq')
    simp only [runPhases, firstSends]
    rw [ih _ hps]
    cases p with
    | fill => simp only [phase, fill_sent, List.append_assoc]
    | drain rx => simp only [phase, drain_sent, List.nil_append]
    | timeout el =>
      cases el with
      | true => exact absurd rfl (hq _ (List.mem_cons_self _ _))
      | false => simp only [phase, timeoutCheck_false, List.nil_append]

theorem phasesOf_quiet (inputs : List (List datagramS × Bool))
    (hq : ∀ i ∈ inputs, i.2 = false) : ∀ p ∈ phasesOf inputs, p ≠ Phase.timeout true := by
  induction inputs with
  | nil => intro p hp; simp [phasesOf] at hp
  | cons i is ih =>
    intro p hp
    simp only [phasesOf, List.mem_cons] at hp
    rcases hp with rfl | rfl | rfl | hp
    · simp
    · simp
    · have := hq i (List.mem_cons_self _ _)
      simp [this]
    · exact ih (fun j hj => hq j (List.mem_cons_of_mem _ hj)) p hp

theorem exit_all_sent (e : Env) (file : List Nat) (ps : List Phase) (n : Nat)
    (hn : numChunks e file = n) (heof : (runPhases e ps (init e file)).fileEOF = true) :
    firstSends e ps (init e file) = chunkPkts e file 0 n
      ∧ (runPhases e ps (init e file)).nextSeqNum = (n + 1) % 65536 := by
  obtain ⟨m, hT, hfs, hne⟩ := runPhases_tracks e file ps 0 (init e file) (init_tracks e file)
  have hle : m ≤ n := by
    by_contra hlt
    have h1 := hne (m - 1) (by omega)
    rw [chunk_ne_nil_iff e file _ (by omega), hn] at h1
    omega
  have hge : n ≤ m := by
    by_contra hlt
    have h1 := chunk_eq_nil_of_tracks e file (0 + m) _ hT heof (m + 1) (by omega)
    have h2 := (chunk_ne_nil_iff e file (m + 1) (by omega)).2 (by omega)
    exact h2 h1
  have hmn : m = n := le_antisymm hle hge
  subst hmn
  refine ⟨hfs, ?_⟩
  rw [hT.2.1, Nat.zero_add]

theorem fill_within (e : Env) (file : List Nat) (n : Nat) (hn : numChunks e file = n)
    (s : Sender) (h : Within e file n s) : Within e file n (fill e s) := by
  obtain ⟨c, hc, ht⟩ := h
  obtain ⟨m, hm1, _, hm3⟩ := fillLoop_tracks e file (s.input.length + 1) c s ht
  refine ⟨c + m, ?_, hm1⟩
  by_contra hlt
  have h1 := hm3 (m - 1) (by omega)
  rw [chunk_ne_nil_iff e file _ (by omega), hn] at h1
  omega

theorem iteration_within (e : Env) (file : List Nat) (n : Nat) (hn : numChunks e file = n)
    (rx : List datagramS) (elapsed : Bool) (s : Sender) (h : Within e file n s) :
    Within e file n (iteration e rx elapsed s) := by
  obtain ⟨c, hc, ht⟩ := fill_within e file n hn s h
  exact ⟨c, hc, timeoutCheck_tracks e file c elapsed _ (drain_tracks e file c rx _ ht)⟩

theorem within_nextSeqNum_le (e : Env) (file : List Nat) (n : Nat) (s : Sender)
    (h : Within e file n s) : s.nextSeqNum ≤ n + 1 := by
  obtain ⟨c, hc, ht⟩ := h
  rw [ht.2.1]
  exact le_trans (Nat.mod_le _ _) (by omega)

theorem init_within (e : Env) (file : List Nat) (n : Nat) : Within e file n (init e file) :=
  ⟨0, Nat.zero_le _, init_tracks e file⟩

theorem mainLoop_of_not_guard (e : Env) (inputs : List (List datagramS × Bool)) (s : Sender)
    (h : loopGuard s = false) : mainLoop e inputs s = some s := by
  cases inputs with
  | nil => simp [mainLoop, h]
  | cons i is => simp [mainLoop, h]

theorem iteration_base_ge_of_ack (e : Env) (rx : List datagramS) (elapsed : Bool) (s : Sender)
    (ack : datagramS) (hmem : ack ∈ rx) (hv : e.validateChecksum ack = true) :
    (ack.ackNum + 1) % 65536 ≤ (iteration e rx elapsed s).base := by
  simp only [iteration, timeoutCheck_base]
  rw [drain_base_eq_ackMax]
  exact ((ackMax_le_iff e rx _ _).1 le_rfl).2 ack hmem hv

theorem iteration_base_le (e : Env) (rx : List datagramS) (elapsed : Bool) (s : Sender) :
    s.base ≤ (iteration e rx elapsed s).base := by
  simp only [iteration, timeoutCheck_base]
  refine le_trans ?_ (drain_base_le e rx _)
  rw [fill, fillLoop_base]

theorem iteration_guard_false_of_acked (e : Env) (file : List Nat) (n : Nat)
    (hn : numChunks e file = n) (rx : List datagramS) (elapsed : Bool) (s : Sender)
    (h : Within e file n s) (hb : n + 1 ≤ s.base) :
    loopGuard (iteration e rx elapsed s) = false := by
  rw [loopGuard_false_iff]
  have hw := within_nextSeqNum_le e file n _ (iteration_within e file n hn rx elapsed s h)
  have hb2 := iteration_base_le e rx elapsed s
  refine ⟨?_, by omega⟩
  simp only [iteration, timeoutCheck_fileEOF, drain_fileEOF]
  have hg := fill_guard_false e _ s (Nat.lt_succ_self s.input.length)
  have hfw := within_nextSeqNum_le e file n _ (fill_within e file n hn s h)
  have hfb : (fill e s).base = s.base := fillLoop_base _ _ _
  by_contra hne
  apply hg
  refine ⟨by simpa using hne, ?_⟩
  show (fill e s).nextSeqNum < (fill e s).base + WINDOW_SIZE
  rw [hfb]
  simp only [WINDOW_SIZE]
  omega

theorem mainLoop_isSome_of_ack (e : Env) (file : List Nat) (n : Nat)
    (hn : numChunks e file = n) (hsmall : n ≤ 65534)
    (pre : List (List datagramS × Bool)) (i j : List datagramS × Bool)
    (post : List (List datagramS × Bool)) (ack : datagramS) (hmem : ack ∈ i.1)
    (hv : e.validateChecksum ack = true) (hack : ack.ackNum = n) (s : Sender)
    (h : Within e file n s) : (mainLoop e (pre ++ i :: j :: post) s).isSome = true := by
  induction pre generalizing s with
  | nil =>
    simp only [List.nil_append, mainLoop]
    split_ifs with hg1 hg2
    · have hb : n + 1 ≤ (iteration e i.1 i.2 s).base := by
        have := iteration_base_ge_of_ack e i.1 i.2 s ack hmem hv
        rw [hack, Nat.mod_eq_of_lt (by omega)] at this
        exact this
      rw [mainLoop_of_not_guard e post _
        (iteration_guard_false_of_acked e file n hn j.1 j.2 _
          (iteration_within e file n hn i.1 i.2 s h) hb)]
      rfl
    · rfl
    · rfl
  | cons p pre ih =>
    simp only [List.cons_append, mainLoop]
    split_ifs with hg
    · exact ih _ (iteration_within e file n hn p.1 p.2 s h)
    · rfl

/-- C11 (zero-loss scenario, transmissions). For a file of exactly 25
non-empty chunks and a schedule on which the timer never expires, whatever is
received: when the transfer completes, the datagrams sent are exactly the 25
data datagrams built from the chunks 1 to 25, with `seqNum` 1, 2, ..., 25,
each once and in this order, followed by exactly one end marker with
`seqNum = 26` and `payloadLength = 0`. The transfer does complete on every
schedule on which a valid datagram with `ackNum = 25` is received in some
iteration that is followed by at least one more. -/
theorem zero_loss_transmissions (e : Env) (file : List Nat) (h25 : numChunks e file = 25) :
    (∀ (inputs : List (List datagramS × Bool)) (t : Sender),
        (∀ i ∈ inputs, i.2 = false) → transfer e file inputs = some t →
          t.sent = chunkPkts e file 0 25 ++ [finPkt e 26]
            ∧ t.sent.map (fun d => d.seqNum) = List.range' 1 26
            ∧ (∀ k : Nat, 1 ≤ k → k ≤ 25 →
                t.sent[k - 1]? = some (buildPkt e k (chunk e file k)) ∧ chunk e file k ≠ [])
            ∧ t.sent[25]? = some (finPkt e 26)
            ∧ (finPkt e 26).seqNum = 26 ∧ (finPkt e 26).payloadLength = 0
            ∧ t.sent.length = 26)
      ∧ ∀ (pre : List (List datagramS × Bool)) (i j : List datagramS × Bool)
          (post : List (List datagramS × Bool)) (ack : datagramS),
          ack ∈ i.1 → e.validateChecksum ack = true → ack.ackNum = 25 →
            (transfer e file (pre ++ i :: j :: post)).isSome = true := by
  refine ⟨?_, ?_⟩
  · intro inputs t hquiet ht
    simp only [transfer, Option.map_eq_some'] at ht
    obtain ⟨u, hu, rfl⟩ := ht
    obtain ⟨k, hk, hg⟩ := mainLoop_exit e inputs _ u hu
    have heof : u.fileEOF = true := ((loopGuard_false_iff u).1 hg).1
    have hq : ∀ p ∈ phasesOf (inputs.take k), p ≠ Phase.timeout true :=
      phasesOf_quiet _ (fun i hi => hquiet i (List.mem_of_mem_take hi))
    have hsent := runPhases_sent_of_quiet e (phasesOf (inputs.take k)) (init e file) hq
    obtain ⟨hfs, hnext⟩ := exit_all_sent e file (phasesOf (inputs.take k)) 25 h25 (hk ▸ heof)
    rw [← hk] at hsent hnext
    have hu_sent : u.sent = chunkPkts e file 0 25 := by
      rw [hsent, hfs]; rfl
    have hall : (sendFin e u).sent = chunkPkts e file 0 25 ++ [finPkt e 26] := by
      simp only [sendFin, hu_sent, hnext, finPkt]
    have hlen : (chunkPkts e file 0 25).length = 25 := chunkPkts_length e file 0 25
    refine ⟨hall, ?_, ?_, ?_, rfl, rfl, ?_⟩
    · rw [hall]; rfl
    · intro k hk1 hk2
      refine ⟨?_, ?_⟩
      · rw [hall, List.getElem?_append_left (by rw [hlen]; omega),
          chunkPkts_getElem?_of_lt e file 0 25 (k - 1) (by omega),
          show 0 + (k - 1) + 1 = k by omega, Nat.mod_eq_of_lt (by omega)]
      · rw [chunk_ne_nil_iff e file k hk1, h25]; exact hk2
    · rw [hall, List.getElem?_append_right (by rw [hlen]), hlen]
      rfl
    · rw [hall, List.length_append, hlen]; rfl
  · intro pre i j post ack hmem hv hack
    have := mainLoop_isSome_of_ack e file 25 h25 (by norm_num) pre i j post ack hmem hv hack
      (init e file) (init_within e file 25)
    simp only [transfer, Option.isSome_map']
    exact this

/-- Witness for C11: `file25` under the schedule `zeroLossInputs`. -/
theorem zero_loss_transmissions_witness :
    numChunks sampleEnv file25 = 25
      ∧ (∀ i ∈ zeroLossInputs, i.2 = false)
      ∧ (transfer sampleEnv file25 zeroLossInputs).isSome = true
      ∧ ∀ t : Sender, transfer sampleEnv file25 zeroLossInputs = some t →
          t.sent.map (fun d => d.seqNum) = List.range' 1 26 :=
  ⟨by decide, by decide, by decide,
    fun t ht => ((zero_loss_transmissions sampleEnv file25 (by decide)).1 zeroLossInputs t
      (by decide) ht).2.1⟩

/-! ## Termination when the channel delivers -/

theorem fillLoop_eof_guard (e : Env) (fuel : Nat) (s : Sender) (hg : s.fileEOF = false)
    (he : (fillLoop e fuel s).fileEOF = true) :
    (fillLoop e fuel s).nextSeqNum < (fillLoop e fuel s).base + WINDOW_SIZE := by
  induction fuel generalizing s with
  | zero => simp only [fillLoop] at he; rw [hg] at he; exact absurd he (by simp)
  | succ n ih =>
    simp only [fillLoop] at he ⊢
    split_ifs at he ⊢ with hgd hr
    · exact hgd.2
    · exact ih _ hgd.1 he
    · rw [hg] at he; exact absurd he (by simp)

theorem fill_exact (e : Env) (file : List Nat) (n c : Nat) (s : Sender)
    (hn : numChunks e file = n) (hsmall : n ≤ 65534) (ht : Tracks e file c s) (hc : c ≤ n)
    (hg : s.fileEOF = false) (hw : s.nextSeqNum ≤ s.base + WINDOW_SIZE) :
    ∃ m, m = min (s.base + WINDOW_SIZE - s.nextSeqNum) (n - c)
      ∧ Tracks e file (c + m) (fill e s)
      ∧ (fill e s).nextSeqNum = c + m + 1
      ∧ (fill e s).base = s.base
      ∧ ((fill e s).fileEOF = true ↔ n - c < s.base + WINDOW_SIZE - s.nextSeqNum) := by
  obtain ⟨m, hT, _, hne⟩ := fillLoop_tracks e file (s.input.length + 1) c s ht
  have hsn : s.nextSeqNum = c + 1 := by rw [ht.2.1]; exact Nat.mod_eq_of_lt (by omega)
  have hcm : c + m ≤ n := by
    by_contra hlt
    have h1 := hne (m - 1) (by omega)
    rw [chunk_ne_nil_iff e file _ (by omega), hn] at h1
    omega
  have hnext : (fill e s).nextSeqNum = c + m + 1 := by
    have := hT.2.1
    rw [Nat.mod_eq_of_lt (by omega)] at this
    exact this
  have hbase : (fill e s).base = s.base := fillLoop_base _ _ _
  have hwb : (fill e s).nextSeqNum ≤ (fill e s).base + WINDOW_SIZE :=
    fillLoop_window_bound e _ s hw
  have hgf := fill_guard_false e _ s (Nat.lt_succ_self s.input.length)
  rw [hnext, hbase] at hwb
  cases heof : (fill e s).fileEOF with
  | true =>
    have h1 := chunk_eq_nil_of_tracks e file (c + m) _ hT heof (c + m + 1) (by omega)
    have h2 : ¬ (c + m + 1 ≤ n) := by
      intro hle
      exact (chunk_ne_nil_iff e file (c + m + 1) (by omega)).2 (by rw [hn]; exact hle) h1
    have h3 := fillLoop_eof_guard e _ s hg heof
    have h3' : (fill e s).nextSeqNum < (fill e s).base + WINDOW_SIZE := h3
    rw [hnext, hbase] at h3'
    refine ⟨m, ?_, hT, hnext, hbase, ?_⟩
    · rw [hsn]; omega
    · rw [hsn]; simp only [true_iff]; omega
  | false =>
    have h3 : ¬ ((fill e s).nextSeqNum < (fill e s).base + WINDOW_SIZE) := by
      intro hlt
      exact hgf ⟨heof, hlt⟩
    rw [hnext, hbase] at h3
    refine ⟨m, ?_, hT, hnext, hbase, ?_⟩
    · rw [hsn]; omega
    · rw [hsn]; simp only [Bool.false_eq_true, false_iff]; omega

theorem delivering_cons (e : Env) (i : List datagramS × Bool)
    (is : List (List datagramS × Bool)) (s : Sender) (hg : loopGuard s = true)
    (h : delivering e (i :: is) s = true) :
    ∃ ack, i.1 = [ack] ∧ e.validateChecksum ack = true
      ∧ ack.ackNum + 1 = (fill e s).nextSeqNum ∧ i.2 = false
      ∧ delivering e is (iteration e i.1 i.2 s) = true := by
  simp only [delivering, hg, if_true, Bool.and_eq_true, Bool.not_eq_true'] at h
  obtain ⟨⟨h1, h2⟩, h3⟩ := h
  match hi : i.1 with
  | [] => rw [hi] at h1; simp at h1
  | [ack] =>
    rw [hi] at h1
    simp only [Bool.and_eq_true, decide_eq_true_eq] at h1
    exact ⟨ack, rfl, h1.1, h1.2, h2, by rw [← hi]; exact h3⟩
  | a :: b :: rest => rw [hi] at h1; simp at h1

theorem iteration_delivering (e : Env) (file : List Nat) (n c : Nat) (s : Sender)
    (hn : numChunks e file = n) (hsmall : n ≤ 65534) (ht : Tracks e file c s) (hc : c ≤ n)
    (hg : s.fileEOF = false) (hb : s.base = c + 1) (ack : datagramS)
    (hv : e.validateChecksum ack = true) (hack : ack.ackNum + 1 = (fill e s).nextSeqNum) :
    ∃ m, m = min WINDOW_SIZE (n - c)
      ∧ Tracks e file (c + m) (iteration e [ack] false s)
      ∧ (iteration e [ack] false s).nextSeqNum = c + m + 1
      ∧ (iteration e [ack] false s).base = c + m + 1
      ∧ ((iteration e [ack] false s).fileEOF = true ↔ n - c < WINDOW_SIZE) := by
  have hsn : s.nextSeqNum = c + 1 := by rw [ht.2.1]; exact Nat.mod_eq_of_lt (by omega)
  obtain ⟨m, hm, hT, hnext, hbase, heof⟩ :=
    fill_exact e file n c s hn hsmall ht hc hg (by rw [hsn, hb]; omega)
  have hm' : m = min WINDOW_SIZE (n - c) := by rw [hm, hsn, hb]; congr 1; omega
  have hcm : c + m ≤ n := by rw [hm']; omega
  have hiter : iteration e [ack] false s = processAck e ack (fill e s) := by
    simp only [iteration, drain, timeoutCheck_false]
  rw [hiter]
  refine ⟨m, hm', processAck_tracks e file _ ack _ hT, ?_, ?_, ?_⟩
  · rw [processAck_nextSeqNum, hnext]
  · have hnb : (ack.ackNum + 1) % 65536 = c + m + 1 := by
      rw [hack, hnext]; exact Nat.mod_eq_of_lt (by omega)
    by_cases hadv : (fill e s).base < (ack.ackNum + 1) % 65536
    · rw [processAck_base_of_advance e ack _ hv hadv, hnb]
    · rw [processAck_of_stale e ack _ (by omega), hbase, hb]
      rw [hnb, hbase, hb] at hadv
      omega
  · rw [processAck_fileEOF, heof, hsn, hb]
    constructor <;> intro h <;> omega

theorem run_delivering (e : Env) (file : List Nat) (n : Nat) (hn : numChunks e file = n)
    (hsmall : n ≤ 65534) (inputs : List (List datagramS × Bool)) (c : Nat) (s : Sender)
    (ht : Tracks e file c s) (hc : c ≤ n) (hg : s.fileEOF = false) (hb : s.base = c + 1)
    (hdel : delivering e inputs s = true)
    (hlen : (n - c) / WINDOW_SIZE + 1 ≤ inputs.length) :
    ∃ t, mainLoop e inputs s = some t
      ∧ iterations e inputs s = (n - c) / WINDOW_SIZE + 1
      ∧ t.base = n + 1 ∧ t.nextSeqNum = n + 1 ∧ t.fileEOF = true := by
  induction inputs generalizing c s with
  | nil => simp at hlen
  | cons i is ih =>
    have hguard : loopGuard s = true := by simp [loopGuard, hg]
    obtain ⟨ack, hi1, hv, hack, hi2, hrest⟩ := delivering_cons e i is s hguard hdel
    obtain ⟨m, hm, hT, hnext, hbase, heof⟩ :=
      iteration_delivering e file n c s hn hsmall ht hc hg hb ack hv hack
    have hstep : iteration e i.1 i.2 s = iteration e [ack] false s := by rw [hi1, hi2]
    simp only [mainLoop, iterations, hguard, if_true, hstep]
    rw [hstep] at hrest
    by_cases hlast : n - c < WINDOW_SIZE
    · have hm2 : c + m = n := by rw [hm]; omega
      have hEOF := heof.2 hlast
      have hgf : loopGuard (iteration e [ack] false s) = false := by
        rw [loopGuard_false_iff]; exact ⟨hEOF, by omega⟩
      refine ⟨iteration e [ack] false s, mainLoop_of_not_guard e is _ hgf, ?_, ?_, ?_, hEOF⟩
      · have hzero : iterations e is (iteration e [ack] false s) = 0 := by
          cases is with
          | nil => rfl
          | cons j js => simp [iterations, hgf]
        rw [hzero, Nat.div_eq_of_lt hlast]
      · omega
      · omega
    · have hm2 : m = WINDOW_SIZE := by rw [hm]; omega
      have hnotEOF : (iteration e [ack] false s).fileEOF = false := by
        cases hx : (iteration e [ack] false s).fileEOF with
        | true => exact absurd (heof.1 hx) hlast
        | false => rfl
      have hdiv : (n - c) / WINDOW_SIZE = (n - (c + m)) / WINDOW_SIZE + 1 := by
        rw [hm2]
        simp only [WINDOW_SIZE] at hlast ⊢
        omega
      obtain ⟨t, ht1, ht2, ht3⟩ := ih (c + m) _ hT (by rw [hm2]; omega) hnotEOF hbase hrest
        (by simp only [List.length_cons] at hlen; omega)
      exact ⟨t, ht1, by rw [ht2, hdiv], ht3⟩

/-- C13 (termination when the channel delivers). For a file of `n` chunks,
`n ≤ 65534` so that the 16-bit counters do not wrap: if in every iteration
the Drain receives exactly one datagram, valid and acknowledging the highest
sequence number assigned so far, and the timer never expires, and the
schedule supplies at least `n / WINDOW_SIZE + 1` iterations, then the main
loop exits after exactly `n / WINDOW_SIZE + 1` iterations, which is at most
`⌈n / WINDOW_SIZE⌉ + 1`, in a state with `base = nextSeqNum = n + 1`, and the
transfer then sends exactly one more datagram, the end marker with
`seqNum = n + 1` and `payloadLength = 0`. -/
theorem delivering_terminates (e : Env) (file : List Nat) (n : Nat)
    (inputs : List (List datagramS × Bool)) (hn : numChunks e file = n) (hsmall : n ≤ 65534)
    (hdel : delivering e inputs (init e file) = true)
    (hlen : n / WINDOW_SIZE + 1 ≤ inputs.length) :
    iterations e inputs (init e file) = n / WINDOW_SIZE + 1
      ∧ iterations e inputs (init e file) ≤ (n + WINDOW_SIZE - 1) / WINDOW_SIZE + 1
      ∧ ∃ t, mainLoop e inputs (init e file) = some t
          ∧ t.base = n + 1 ∧ t.nextSeqNum = n + 1 ∧ t.fileEOF = true
          ∧ transfer e file inputs = some (sendFin e t)
          ∧ (sendFin e t).sent = t.sent ++ [finPkt e (n + 1)]
          ∧ (finPkt e (n + 1)).seqNum = n + 1 ∧ (finPkt e (n + 1)).payloadLength = 0 := by
  obtain ⟨t, ht1, ht2, ht3, ht4, ht5⟩ := run_delivering e file n hn hsmall inputs 0 (init e file)
    (init_tracks e file) (Nat.zero_le _) rfl rfl hdel (by simpa using hlen)
  simp only [Nat.sub_zero] at ht2
  refine ⟨ht2, ?_, t, ht1, ht3, ht4, ht5, ?_, ?_, rfl, rfl⟩
  · rw [ht2]
    simp only [WINDOW_SIZE]
    omega
  · simp only [transfer, ht1, Option.map_some']
  · simp only [sendFin, ht4, finPkt]

/-- Witness for C13: `sampleFile` (three chunks), acknowledged in the first
iteration. -/
theorem delivering_terminates_witness :
    numChunks sampleEnv sampleFile = 3
      ∧ delivering sampleEnv deliveringInputs (init sampleEnv sampleFile) = true
      ∧ 3 / WINDOW_SIZE + 1 ≤ deliveringInputs.length
      ∧ iterations sampleEnv deliveringInputs (init sampleEnv sampleFile) = 3 / WINDOW_SIZE + 1 :=
  ⟨by decide, by decide, by decide,
    (delivering_terminates sampleEnv sampleFile 3 deliveringInputs (by decide) (by decide)
      (by decide) (by decide)).1⟩

/-! ## Calls of the timer in runs without expiry -/

theorem sendNext_timer (e : Env) (s : Sender) (h : Ordered e s)
    (hr : ¬ (s.input.take e.MAX_PAYLOAD_LENGTH).length ≤ 0) :
    (sendNext e s).rto.starts + outstanding s = s.rto.starts + outstanding (sendNext e s)
      ∧ (sendNext e s).rto.stops = s.rto.stops := by
  have ho := sendNext_ordered e s h hr
  obtain ⟨h1, h2⟩ := h
  simp only [List.length_take] at hr
  have hlt : s.nextSeqNum < 65535 := by
    by_contra hge
    have := Nat.mul_le_mul_right e.MAX_PAYLOAD_LENGTH (Nat.le_of_not_lt hge)
    omega
  have hmod : (s.nextSeqNum + 1) % 65536 = s.nextSeqNum + 1 := Nat.mod_eq_of_lt (by omega)
  have hout : outstanding (sendNext e s) = 1 := by
    simp only [outstanding, sendNext, hmod]
    rw [if_pos (by omega)]
  rw [hout]
  by_cases hb : s.base = s.nextSeqNum
  · have h0 : outstanding s = 0 := by
      simp only [outstanding]; rw [if_neg (by omega)]
    simp only [sendNext, if_pos hb, timerC.start, h0]
    exact ⟨trivial, trivial⟩
  · have h0 : outstanding s = 1 := by
      simp only [outstanding]; rw [if_pos (by omega)]
    simp only [sendNext, if_neg hb, h0]
    exact ⟨trivial, trivial⟩

theorem fillLoop_timer (e : Env) (fuel : Nat) (s : Sender) (h : Ordered e s) :
    (fillLoop e fuel s).rto.starts + outstanding s
        = s.rto.starts + outstanding (fillLoop e fuel s)
      ∧ (fillLoop e fuel s).rto.stops = s.rto.stops := by
  induction fuel generalizing s with
  | zero => exact ⟨rfl, rfl⟩
  | succ n ih =>
    simp only [fillLoop]
    split_ifs with hg hr
    · exact ⟨rfl, rfl⟩
    · obtain ⟨h1, h2⟩ := ih _ (sendNext_ordered e s h hr)
      obtain ⟨h3, h4⟩ := sendNext_timer e s h hr
      exact ⟨by omega, by rw [h2, h4]⟩
    · exact ⟨rfl, rfl⟩

theorem processAck_timer (e : Env) (ack : datagramS) (s : Sender) (h : Ordered e s)
    (ha : e.validateChecksum ack = true → (ack.ackNum + 1) % 65536 ≤ s.nextSeqNum) :
    (processAck e ack s).rto.starts + outstanding s
        = s.rto.starts + (if advances e ack s = true then 1 else 0)
          + outstanding (processAck e ack s)
      ∧ (processAck e ack s).rto.stops
        = s.rto.stops + (if empties e ack s = true then 1 else 0)
      ∧ (processAck e ack s).base
        ≤ s.base + WINDOW_SIZE * (if advances e ack s = true then 1 else 0)
          + (s.nextSeqNum - (s.base + WINDOW_SIZE)) := by
  obtain ⟨h1, _⟩ := h
  by_cases hv : e.validateChecksum ack = true
  · by_cases hadv : s.base < (ack.ackNum + 1) % 65536
    · have hin := ha hv
      have hA : advances e ack s = true := by simp [advances, hv, hadv]
      have ho : outstanding s = 1 := by
        simp only [outstanding]; rw [if_pos (by omega)]
      by_cases heq : (ack.ackNum + 1) % 65536 = s.nextSeqNum
      · have hE : empties e ack s = true := by simp [empties, hA, heq]
        have hs : processAck e ack s
            = { s with base := (ack.ackNum + 1) % 65536, rto := s.rto.stop } := by
          dsimp only [processAck]
          rw [if_neg (by simp [hv]), if_pos hadv, if_pos heq]
        have ho' : outstanding (processAck e ack s) = 0 := by
          rw [hs]; simp only [outstanding]; rw [if_neg (by omega)]
        rw [ho, ho', hA, hE]
        refine ⟨?_, ?_, ?_⟩
        · rw [hs]; simp only [timerC.stop, if_true]
        · rw [hs]; simp only [timerC.stop, if_true]
        · rw [hs]; simp only [WINDOW_SIZE, if_true]; omega
      · have hE : empties e ack s = false := by simp [empties, heq]
        have hs : processAck e ack s
            = { s with base := (ack.ackNum + 1) % 65536, rto := s.rto.start } := by
          dsimp only [processAck]
          rw [if_neg (by simp [hv]), if_pos hadv, if_neg heq]
        have ho' : outstanding (processAck e ack s) = 1 := by
          rw [hs]; simp only [outstanding]; rw [if_pos (by omega)]
        rw [ho, ho', hA, hE]
        refine ⟨?_, ?_, ?_⟩
        · rw [hs]; simp only [timerC.start, if_true]
        · rw [hs]; simp [timerC.start]
        · rw [hs]; simp only [WINDOW_SIZE, if_true]; omega
    · have hA : advances e ack s = false := by simp [advances, hadv]
      have hE : empties e ack s = false := by simp [empties, hA]
      rw [processAck_of_stale e ack s (by omega), hA, hE]
      simp
  · have hA : advances e ack s = false := by simp [advances, hv]
    have hE : empties e ack s = false := by simp [empties, hA]
    rw [processAck_of_invalid e ack s (by simpa using hv), hA, hE]
    simp

theorem sendNext_no_wrap (e : Env) (s : Sender) (h : Ordered e s)
    (hr : ¬ (s.input.take e.MAX_PAYLOAD_LENGTH).length ≤ 0) :
    (sendNext e s).nextSeqNum = s.nextSeqNum + 1 := by
  obtain ⟨h1, h2⟩ := h
  simp only [List.length_take] at hr
  have hlt : s.nextSeqNum < 65535 := by
    by_contra hge
    have := Nat.mul_le_mul_right e.MAX_PAYLOAD_LENGTH (Nat.le_of_not_lt hge)
    omega
  exact Nat.mod_eq_of_lt (by omega)

theorem sendNext_timerQuiet (e : Env) (s : Sender) (h : Ordered e s) (hq : TimerQuiet s)
    (hr : ¬ (s.input.take e.MAX_PAYLOAD_LENGTH).length ≤ 0) : TimerQuiet (sendNext e s) := by
  have hn := sendNext_no_wrap e s h hr
  have hb : (sendNext e s).base = s.base := rfl
  have hlt : (sendNext e s).base < (sendNext e s).nextSeqNum := by
    rw [hn, hb]; exact Nat.lt_succ_of_le h.1
  have hrun : (sendNext e s).rto.running = true := by
    simp only [sendNext]
    split_ifs with hbn
    · rfl
    · exact hq.1.2 (lt_of_le_of_ne h.1 hbn)
  refine ⟨⟨fun _ => hlt, fun _ => hrun⟩, ?_⟩
  intro hc
  rw [hrun] at hc
  exact absurd hc (by simp)

theorem fillLoop_timerQuiet (e : Env) (fuel : Nat) (s : Sender) (h : Ordered e s)
    (hq : TimerQuiet s) : TimerQuiet (fillLoop e fuel s) := by
  induction fuel generalizing s with
  | zero => exact hq
  | succ n ih =>
    simp only [fillLoop]
    split_ifs with hg hr
    · exact hq
    · exact ih _ (sendNext_ordered e s h hr) (sendNext_timerQuiet e s h hq hr)
    · exact hq

theorem processAck_timerQuiet (e : Env) (ack : datagramS) (s : Sender) (hq : TimerQuiet s)
    (ha : e.validateChecksum ack = true → (ack.ackNum + 1) % 65536 ≤ s.nextSeqNum) :
    TimerQuiet (processAck e ack s) := by
  by_cases hv : e.validateChecksum ack = true
  · by_cases hadv : s.base < (ack.ackNum + 1) % 65536
    · have hin := ha hv
      by_cases heq : (ack.ackNum + 1) % 65536 = s.nextSeqNum
      · have hs : processAck e ack s
            = { s with base := (ack.ackNum + 1) % 65536, rto := s.rto.stop } := by
          dsimp only [processAck]
          rw [if_neg (by simp [hv]), if_pos hadv, if_pos heq]
        rw [hs]
        refine ⟨⟨fun hc => ?_, fun hc => ?_⟩, fun _ _ => ?_⟩
        · simp [timerC.stop] at hc
        · simp only at hc; omega
        · simp [timerC.stop]
      · have hs : processAck e ack s
            = { s with base := (ack.ackNum + 1) % 65536, rto := s.rto.start } := by
          dsimp only [processAck]
          rw [if_neg (by simp [hv]), if_pos hadv, if_neg heq]
        rw [hs]
        refine ⟨⟨fun _ => ?_, fun _ => rfl⟩, fun hc _ => ?_⟩
        · show (ack.ackNum + 1) % 65536 < s.nextSeqNum
          omega
        · simp [timerC.start] at hc
    · rw [processAck_of_stale e ack s (by omega)]; exact hq
  · rw [processAck_of_invalid e ack s (by simpa using hv)]; exact hq

theorem drain_timer (e : Env) (rx : List datagramS) (s : Sender) (h : Ordered e s)
    (hq : TimerQuiet s) (hw : s.nextSeqNum ≤ s.base + WINDOW_SIZE)
    (ha : acksSent e rx s = true) :
    TimerQuiet (drain e rx s)
      ∧ (drain e rx s).rto.starts + outstanding s
          = s.rto.starts + drainAdvances e rx s + outstanding (drain e rx s)
      ∧ (drain e rx s).rto.stops = s.rto.stops + drainEmpties e rx s
      ∧ (drain e rx s).base ≤ s.base + WINDOW_SIZE * drainAdvances e rx s := by
  induction rx generalizing s with
  | nil => exact ⟨hq, by simp [drain, drainAdvances], by simp [drain, drainEmpties],
      by simp [drain]⟩
  | cons a rx ih =>
    simp only [acksSent, List.all_cons, Bool.and_eq_true, Bool.or_eq_true,
      Bool.not_eq_true', decide_eq_true_eq] at ha
    have ha1 : e.validateChecksum a = true → (a.ackNum + 1) % 65536 ≤ s.nextSeqNum := by
      intro hv
      rcases ha.1 with h1 | h1
      · rw [hv] at h1; exact absurd h1 (by simp)
      · exact h1
    obtain ⟨p1, p2, p3⟩ := processAck_timer e a s h ha1
    have hw' : (processAck e a s).nextSeqNum ≤ (processAck e a s).base + WINDOW_SIZE := by
      rw [processAck_nextSeqNum]
      have := processAck_base_le e a s
      omega
    obtain ⟨q0, q1, q2, q3⟩ := ih (processAck e a s) (processAck_ordered e a s h ha1)
      (processAck_timerQuiet e a s hq ha1) hw'
      (by simp only [acksSent, processAck_nextSeqNum]; exact ha.2)
    simp only [drain, drainAdvances, drainEmpties]
    refine ⟨q0, by omega, by omega, ?_⟩
    rw [Nat.mul_add]
    have hz : s.nextSeqNum - (s.base + WINDOW_SIZE) = 0 := Nat.sub_eq_zero_of_le hw
    omega

theorem runPhases_timer (e : Env) (ps : List Phase) (s : Sender) (h : Ordered e s)
    (hq : TimerQuiet s) (hw : s.nextSeqNum ≤ s.base + WINDOW_SIZE)
    (ha : runAcksSent e ps s = true) (hquiet : ∀ p ∈ ps, p ≠ Phase.timeout true) :
    TimerQuiet (runPhases e ps s)
      ∧ (runPhases e ps s).rto.starts + outstanding s
          = s.rto.starts + runAdvances e ps s + outstanding (runPhases e ps s)
      ∧ (runPhases e ps s).rto.stops = s.rto.stops + runEmpties e ps s
      ∧ (runPhases e ps s).base ≤ s.base + WINDOW_SIZE * runAdvances e ps s := by
  induction ps generalizing s with
  | nil => exact ⟨hq, by simp [runPhases, runAdvances], by simp [runPhases, runEmpties],
      by simp [runPhases]⟩
  | cons p ps ih =>
    simp only [runAcksSent, Bool.and_eq_true] at ha
    have hps : ∀ q ∈ ps, q ≠ Phase.timeout true :=
      fun q hq' => hquiet q (List.mem_cons_of_mem _ hq')
    cases p with
    | fill =>
      obtain ⟨f1, f2⟩ := fillLoop_timer e (s.input.length + 1) s h
      have fb : (fill e s).base = s.base := fillLoop_base _ _ _
      obtain ⟨q0, q1, q2, q3⟩ := ih (fill e s) (fillLoop_ordered e _ s h)
        (fillLoop_timerQuiet e _ s h hq) (fillLoop_window_bound e _ s hw) ha.2 hps
      simp only [runPhases, runAdvances, runEmpties, phase, Nat.zero_add]
      have f1' : (fill e s).rto.starts + outstanding s
          = s.rto.starts + outstanding (fill e s) := f1
      have f2' : (fill e s).rto.stops = s.rto.stops := f2
      exact ⟨q0, by omega, by omega, by omega⟩
    | drain rx =>
      obtain ⟨d0, d1, d2, d3⟩ := drain_timer e rx s h hq hw ha.1
      have hw' : (drain e rx s).nextSeqNum ≤ (drain e rx s).base + WINDOW_SIZE := by
        rw [drain_nextSeqNum]
        have := drain_base_le e rx s
        omega
      obtain ⟨q0, q1, q2, q3⟩ := ih (drain e rx s) (drain_ordered e rx s h ha.1) d0 hw' ha.2 hps
      simp only [runPhases, runAdvances, runEmpties, phase]
      refine ⟨q0, by omega, by omega, ?_⟩
      rw [Nat.mul_add]
      omega
    | timeout el =>
      cases el with
      | true => exact absurd rfl (hquiet _ (List.mem_cons_self _ _))
      | false =>
        have hid : phase e (Phase.timeout false) s = s := timeoutCheck_false s
        rw [hid] at ha
        obtain ⟨q0, q1, q2, q3⟩ := ih s h hq hw ha.2 hps
        simp only [runPhases, runAdvances, runEmpties, hid, Nat.zero_add]
        exact ⟨q0, q1, q2, q3⟩

theorem mainLoop_exit_iterations (e : Env) (inputs : List (List datagramS × Bool))
    (s t : Sender) (h : mainLoop e inputs s = some t) :
    t = runPhases e (phasesOf (inputs.take (iterations e inputs s))) s
      ∧ loopGuard t = false := by
  induction inputs generalizing s with
  | nil =>
    simp only [mainLoop] at h
    split_ifs at h with hg
    simp only [Option.some.injEq] at h
    subst h
    exact ⟨rfl, by simpa using hg⟩
  | cons i is ih =>
    simp only [mainLoop] at h
    split_ifs at h with hg
    · obtain ⟨hk, hgt⟩ := ih _ h
      refine ⟨?_, hgt⟩
      simp only [iterations, hg, if_true, List.take_succ_cons, phasesOf, runPhases, phase]
      exact hk
    · simp only [Option.some.injEq] at h
      subst h
      refine ⟨?_, by simpa using hg⟩
      simp only [iterations, hg]
      rfl

theorem length_le_of_numChunks (e : Env) (file : List Nat) (n : Nat)
    (hn : numChunks e file = n) (h1 : 1 ≤ n) :
    file.length ≤ n * e.MAX_PAYLOAD_LENGTH := by
  by_cases hM : e.MAX_PAYLOAD_LENGTH = 0
  · simp [numChunks, hM] at hn; omega
  · have hpos : 0 < e.MAX_PAYLOAD_LENGTH := Nat.pos_of_ne_zero hM
    have hlt : (file.length + e.MAX_PAYLOAD_LENGTH - 1) / e.MAX_PAYLOAD_LENGTH < n + 1 := by
      rw [← hn]; exact Nat.lt_succ_self _
    rw [Nat.div_lt_iff_lt_mul hpos, Nat.succ_mul] at hlt
    omega

/-- C12, as stated, fails: for `file25` (25 chunks) and the zero-loss schedule
`zeroLossInputs`, in which every datagram is acknowledged in order by a valid
datagram and the timer never expires, the main loop exits after `start()`
has been called 25 times and `stop()` 3 times. -/
theorem zero_loss_timer_counterexample :
    numChunks sampleEnv file25 = 25
      ∧ (∀ i ∈ zeroLossInputs, i.2 = false ∧ ∀ a ∈ i.1, sampleEnv.validateChecksum a = true)
      ∧ runAcksSent sampleEnv (phasesOf zeroLossInputs) (init sampleEnv file25) = true
      ∧ (mainLoop sampleEnv zeroLossInputs (init sampleEnv file25)).map
          (fun t => (t.base, t.rto.starts, t.rto.stops)) = some (26, 25, 3) := by
  decide

/-- C12, amended (zero-loss scenario, timer). For a file of exactly 25
non-empty chunks: the timer is started, for the first time, when the datagram
with `seqNum = 1` is sent; and on every schedule on which the timer never
expires and every received datagram that passes validation acknowledges an
assigned sequence number, when the main loop exits `base = nextSeqNum = 26`,
the timer is not running, `start()` has been called once for every received
datagram that advanced `base`, which is at least 3 times, and `stop()` has
been called once for every received datagram that advanced `base` to
`nextSeqNum`, which is at least once. -/
theorem zero_loss_timer (e : Env) (file : List Nat) (h25 : numChunks e file = 25) :
    ((sendNext e (init e file)).sent = [buildPkt e 1 (chunk e file 1)]
        ∧ (init e file).rto.starts = 0
        ∧ (sendNext e (init e file)).rto = { running := true, starts := 1, stops := 0 })
      ∧ ∀ (inputs : List (List datagramS × Bool)) (t : Sender),
          (∀ i ∈ inputs, i.2 = false) →
          runAcksSent e (phasesOf inputs) (init e file) = true →
          mainLoop e inputs (init e file) = some t →
            t.base = 26 ∧ t.nextSeqNum = 26 ∧ t.rto.running = false
              ∧ t.rto.starts
                = runAdvances e (phasesOf (inputs.take (iterations e inputs (init e file))))
                    (init e file)
              ∧ 3 ≤ t.rto.starts
              ∧ t.rto.stops
                = runEmpties e (phasesOf (inputs.take (iterations e inputs (init e file))))
                    (init e file)
              ∧ 1 ≤ t.rto.stops := by
  refine ⟨⟨?_, rfl, rfl⟩, ?_⟩
  · simp only [sendNext, init, chunk, Nat.sub_self, Nat.zero_mul, List.drop_zero,
      List.nil_append]
  · intro inputs t hquiet hacks hrun
    obtain ⟨hk, hg⟩ := mainLoop_exit_iterations e inputs _ t hrun
    have hfile : file.length ≤ 65534 * e.MAX_PAYLOAD_LENGTH :=
      le_trans (length_le_of_numChunks e file 25 h25 (by norm_num))
        (Nat.mul_le_mul_right _ (by norm_num))
    have hord := init_ordered e file hfile
    have hacks' := runAcksSent_take e inputs (iterations e inputs (init e file)) _ hacks
    have hq : ∀ p ∈ phasesOf (inputs.take (iterations e inputs (init e file))),
        p ≠ Phase.timeout true :=
      phasesOf_quiet _ (fun i hi => hquiet i (List.mem_of_mem_take hi))
    have hinitq : TimerQuiet (init e file) := by
      refine ⟨⟨fun hc => ?_, fun hc => ?_⟩, fun _ hc => ?_⟩
      · simp [init] at hc
      · simp [init] at hc
      · simp [init] at hc
    obtain ⟨r0, r1, r2, r3⟩ := runPhases_timer e _ (init e file) hord hinitq
      (by simp [init, WINDOW_SIZE]) hacks' hq
    have hordt := runPhases_ordered e _ _ hord hacks'
    rw [← hk] at r0 r1 r2 r3 hordt
    obtain ⟨heof, hle⟩ := (loopGuard_false_iff t).1 hg
    obtain ⟨_, hnext⟩ := exit_all_sent e file _ 25 h25 (hk ▸ heof)
    rw [← hk] at hnext
    have hn26 : t.nextSeqNum = 26 := by rw [hnext]
    have hb26 : t.base = 26 := by
      have := hordt.1
      omega
    have hout : outstanding t = 0 := by
      simp only [outstanding]; rw [if_neg (by omega)]
    have hout0 : outstanding (init e file) = 0 := by
      simp [outstanding, init]
    have hs0 : (init e file).rto.starts = 0 := rfl
    have hz0 : (init e file).rto.stops = 0 := rfl
    have hb0 : (init e file).base = 1 := rfl
    rw [hout, hout0, hs0] at r1
    rw [hz0] at r2
    rw [hb26, hb0] at r3
    have hstarts : 3 ≤ t.rto.starts := by
      simp only [WINDOW_SIZE] at r3
      omega
    have hnotrun : t.rto.running = false := by
      cases hr : t.rto.running with
      | true => have := r0.1.1 hr; omega
      | false => rfl
    refine ⟨hb26, hn26, hnotrun, by omega, hstarts, by omega, ?_⟩
    exact r0.2 hnotrun (by omega)

/-- Witness for the amended C12: `file25` under the schedule `zeroLossInputs`. -/
theorem zero_loss_timer_witness :
    numChunks sampleEnv file25 = 25
      ∧ (∀ i ∈ zeroLossInputs, i.2 = false)
      ∧ runAcksSent sampleEnv (phasesOf zeroLossInputs) (init sampleEnv file25) = true
      ∧ (mainLoop sampleEnv zeroLossInputs (init sampleEnv file25)).isSome = true
      ∧ ∀ t : Sender, mainLoop sampleEnv zeroLossInputs (init sampleEnv file25) = some t →
          t.rto.running = false ∧ 3 ≤ t.rto.starts ∧ 1 ≤ t.rto.stops := by
  refine ⟨by decide, by decide, by decide, by decide, fun t ht => ?_⟩
  have h := (zero_loss_timer sampleEnv file25 (by decide)).2 zeroLossInputs t (by decide)
    (by decide) ht
  exact ⟨h.2.2.1, h.2.2.2.2.1, h.2.2.2.2.2.2⟩

/-! ## A payload of 256 bytes -/

end RftClient
